import Mathlib

/-!
# A verification model of the byte-level BPE tokenizer

This file gives a shallow embedding, in Lean 4, of the BPE training and
tokenization code of `cs336_basics` (`tokenizer.py` and `train_bpe.py`),
and proves or refutes the frozen specification claims about it.

Conventions of the embedding:
* Python `bytes` become `List Nat` (each element a byte value `< 256`);
* Python `str` becomes `List Char` (Lean `Char` is a Unicode scalar value,
  so "every character encodes to valid UTF-8" holds by construction);
* Python `dict` becomes an insertion-ordered association list with
  overwrite-on-rebind (`dictInsert`), matching CPython dict semantics;
* the `regex` engine's character classes `\p{L}`, `\p{N}`, `\s` are modelled
  by executable classifiers below; the theorems proved here do not depend
  on the exact extent of those classes, only on the disjunction
  letter / number / whitespace / other covering every character.
-/

namespace BPE

/-- Byte strings (`bytes` in the Python source): lists of byte values. -/
abbrev Bytes := List Nat

/-- Text (`str` in the Python source): lists of Unicode scalar values. -/
abbrev Str := List Char

/-! ## UTF-8 encoding and decoding

Models of CPython's `str.encode("utf-8")` and
`bytes.decode("utf-8", errors="replace")`. -/

/-- UTF-8 encoding of one Unicode scalar value. -/
def utf8EncodeChar (c : Char) : Bytes :=
  let n := c.toNat
  if n < 0x80 then [n]
  else if n < 0x800 then [0xC0 + n / 64, 0x80 + n % 64]
  else if n < 0x10000 then
    [0xE0 + n / 4096, 0x80 + (n / 64) % 64, 0x80 + n % 64]
  else
    [0xF0 + n / 262144, 0x80 + (n / 4096) % 64, 0x80 + (n / 64) % 64, 0x80 + n % 64]

/-- UTF-8 encoding of a string (`s.encode("utf-8")`). -/
def utf8Encode (s : Str) : Bytes := (s.map utf8EncodeChar).flatten

/-- The replacement character U+FFFD used by `errors="replace"`. -/
def replChar : Char := Char.ofNat 0xFFFD

/-- Is `b` a UTF-8 continuation byte (`0x80..0xBF`)? -/
def isCont (b : Nat) : Bool := 0x80 ≤ b && b ≤ 0xBF

/-- Allowed first-continuation range after a three-byte leader `b`
(RFC 3629 restrictions: `E0` needs `A0..BF`, `ED` needs `80..9F`). -/
def cont1OK3 (b b1 : Nat) : Bool :=
  if b = 0xE0 then 0xA0 ≤ b1 && b1 ≤ 0xBF
  else if b = 0xED then 0x80 ≤ b1 && b1 ≤ 0x9F
  else isCont b1

/-- Allowed first-continuation range after a four-byte leader `b`
(`F0` needs `90..BF`, `F4` needs `80..8F`). -/
def cont1OK4 (b b1 : Nat) : Bool :=
  if b = 0xF0 then 0x90 ≤ b1 && b1 ≤ 0xBF
  else if b = 0xF4 then 0x80 ≤ b1 && b1 ≤ 0x8F
  else isCont b1

/-- One step of `bytes.decode("utf-8", errors="replace")`: given the first
byte `b` and the following bytes `bs`, produce the next decoded character
(the scalar of a well-formed sequence, or U+FFFD for a maximal malformed
subpart) together with the bytes remaining after it. -/
def utf8Step (b : Nat) (bs : Bytes) : Char × Bytes :=
  if b < 0x80 then (Char.ofNat b, bs)
  else if 0xC2 ≤ b && b ≤ 0xDF then
    match bs with
    | [] => (replChar, [])
    | b1 :: bs1 =>
      if isCont b1 then (Char.ofNat ((b - 0xC0) * 64 + (b1 - 0x80)), bs1)
      else (replChar, b1 :: bs1)
  else if 0xE0 ≤ b && b ≤ 0xEF then
    match bs with
    | [] => (replChar, [])
    | b1 :: bs1 =>
      if cont1OK3 b b1 then
        match bs1 with
        | [] => (replChar, [])
        | b2 :: bs2 =>
          if isCont b2 then
            (Char.ofNat ((b - 0xE0) * 4096 + (b1 - 0x80) * 64 + (b2 - 0x80)), bs2)
          else (replChar, b2 :: bs2)
      else (replChar, b1 :: bs1)
  else if 0xF0 ≤ b && b ≤ 0xF4 then
    match bs with
    | [] => (replChar, [])
    | b1 :: bs1 =>
      if cont1OK4 b b1 then
        match bs1 with
        | [] => (replChar, [])
        | b2 :: bs2 =>
          if isCont b2 then
            match bs2 with
            | [] => (replChar, [])
            | b3 :: bs3 =>
              if isCont b3 then
                (Char.ofNat ((b - 0xF0) * 262144 + (b1 - 0x80) * 4096 +
                    (b2 - 0x80) * 64 + (b3 - 0x80)), bs3)
              else (replChar, b3 :: bs3)
          else (replChar, b2 :: bs2)
      else (replChar, b1 :: bs1)
  else (replChar, bs)

/-- The bytes remaining after one decode step never outnumber the bytes
that followed the leading byte. -/
theorem utf8Step_snd_length (b : Nat) (bs : Bytes) :
    (utf8Step b bs).2.length ≤ bs.length := by
  unfold utf8Step
  repeat' split
  all_goals simp_all
  all_goals omega

/-- Model of `bytes.decode("utf-8", errors="replace")`. -/
def utf8DecodeReplace : Bytes → Str
  | [] => []
  | b :: bs => (utf8Step b bs).1 :: utf8DecodeReplace (utf8Step b bs).2
  termination_by bs => bs.length
  decreasing_by
    exact Nat.lt_succ_of_le (utf8Step_snd_length _ _)

theorem utf8DecodeReplace_nil : utf8DecodeReplace [] = [] := by
  simp [utf8DecodeReplace]

theorem utf8DecodeReplace_cons (b : Nat) (bs : Bytes) :
    utf8DecodeReplace (b :: bs)
      = (utf8Step b bs).1 :: utf8DecodeReplace (utf8Step b bs).2 := by
  simp [utf8DecodeReplace]

theorem utf8Encode_nil : utf8Encode [] = [] := rfl

theorem utf8Encode_cons (c : Char) (s : Str) :
    utf8Encode (c :: s) = utf8EncodeChar c ++ utf8Encode s := by
  simp [utf8Encode]

theorem utf8Encode_append (s t : Str) :
    utf8Encode (s ++ t) = utf8Encode s ++ utf8Encode t := by
  simp [utf8Encode]

/-- Stepping a decoder over a well-formed encoded character consumes exactly
that character's bytes and recovers the character. -/
theorem utf8Step_encodeChar (c : Char) (rest : Bytes) :
    ∃ b bs, utf8EncodeChar c ++ rest = b :: bs ∧ utf8Step b bs = (c, rest) := by
  have hvalid : Nat.isValidChar c.toNat := c.valid
  have hofNat : Char.ofNat c.toNat = c := Char.ofNat_toNat c
  by_cases h1 : c.toNat < 0x80
  · refine ⟨c.toNat, rest, ?_, ?_⟩
    · simp [utf8EncodeChar, h1]
    · simp [utf8Step, h1, hofNat]
  · by_cases h2 : c.toNat < 0x800
    · refine ⟨0xC0 + c.toNat / 64, (0x80 + c.toNat % 64) :: rest, ?_, ?_⟩
      · simp [utf8EncodeChar, h1, h2]
      · unfold utf8Step
        have hb1 : ¬ (0xC0 + c.toNat / 64 < 0x80) := by omega
        have hb2 : (0xC2 ≤ 0xC0 + c.toNat / 64 && (0xC0 + c.toNat / 64 ≤ 0xDF)) = true := by
          simp only [Bool.and_eq_true, decide_eq_true_eq]; omega
        have hc : isCont (0x80 + c.toNat % 64) = true := by
          simp only [isCont, Bool.and_eq_true, decide_eq_true_eq]; omega
        rw [if_neg hb1, if_pos hb2]
        simp only [hc, if_true]
        have harith : (0xC0 + c.toNat / 64 - 0xC0) * 64 + (0x80 + c.toNat % 64 - 0x80)
            = c.toNat := by omega
        rw [harith, hofNat]
    · by_cases h3 : c.toNat < 0x10000
      · -- three-byte range; validity excludes the surrogate block D800..DFFF
        have hsurr : c.toNat < 0xD800 ∨ 0xDFFF < c.toNat := by
          rcases hvalid with h | ⟨h, _⟩
          · exact Or.inl h
          · exact Or.inr h
        refine ⟨0xE0 + c.toNat / 4096,
          (0x80 + (c.toNat / 64) % 64) :: (0x80 + c.toNat % 64) :: rest, ?_, ?_⟩
        · simp [utf8EncodeChar, h1, h2, h3]
        · unfold utf8Step
          have hb1 : ¬ (0xE0 + c.toNat / 4096 < 0x80) := by omega
          have hb2 : (0xC2 ≤ 0xE0 + c.toNat / 4096 && (0xE0 + c.toNat / 4096 ≤ 0xDF))
              = false := by
            simp only [Bool.and_eq_false_iff, decide_eq_false_iff_not]; omega
          have hb3 : (0xE0 ≤ 0xE0 + c.toNat / 4096 && (0xE0 + c.toNat / 4096 ≤ 0xEF))
              = true := by
            simp only [Bool.and_eq_true, decide_eq_true_eq]; omega
          have hcont1 : cont1OK3 (0xE0 + c.toNat / 4096) (0x80 + (c.toNat / 64) % 64)
              = true := by
            unfold cont1OK3 isCont
            split
            · next heq =>
              have h0 : c.toNat / 4096 = 0 := by omega
              simp only [Bool.and_eq_true, decide_eq_true_eq]
              omega
            · split
              · next heq =>
                have h13 : c.toNat / 4096 = 13 := by omega
                have hlt : c.toNat < 0xD800 := by
                  rcases hsurr with h | h
                  · exact h
                  · omega
                simp only [Bool.and_eq_true, decide_eq_true_eq]
                omega
              · simp only [Bool.and_eq_true, decide_eq_true_eq]
                omega
          have hcont2 : isCont (0x80 + c.toNat % 64) = true := by
            simp only [isCont, Bool.and_eq_true, decide_eq_true_eq]; omega
          rw [if_neg hb1, hb2, if_neg Bool.false_ne_true, if_pos hb3]
          simp only [hcont1, hcont2, if_true]
          have harith : (0xE0 + c.toNat / 4096 - 0xE0) * 4096 +
              (0x80 + (c.toNat / 64) % 64 - 0x80) * 64 + (0x80 + c.toNat % 64 - 0x80)
              = c.toNat := by omega
          rw [harith, hofNat]
      · -- four-byte range; validity gives c.toNat < 0x110000
        have hub : c.toNat < 0x110000 := by
          rcases hvalid with h | ⟨_, h⟩
          · omega
          · exact h
        refine ⟨0xF0 + c.toNat / 262144,
          (0x80 + (c.toNat / 4096) % 64) ::
            (0x80 + (c.toNat / 64) % 64) :: (0x80 + c.toNat % 64) :: rest, ?_, ?_⟩
        · simp [utf8EncodeChar, h1, h2, h3]
        · unfold utf8Step
          have hb1 : ¬ (0xF0 + c.toNat / 262144 < 0x80) := by omega
          have hb2 : (0xC2 ≤ 0xF0 + c.toNat / 262144 && (0xF0 + c.toNat / 262144 ≤ 0xDF))
              = false := by
            simp only [Bool.and_eq_false_iff, decide_eq_false_iff_not]; omega
          have hb3 : (0xE0 ≤ 0xF0 + c.toNat / 262144 && (0xF0 + c.toNat / 262144 ≤ 0xEF))
              = false := by
            simp only [Bool.and_eq_false_iff, decide_eq_false_iff_not]; omega
          have hb4 : (0xF0 ≤ 0xF0 + c.toNat / 262144 && (0xF0 + c.toNat / 262144 ≤ 0xF4))
              = true := by
            simp only [Bool.and_eq_true, decide_eq_true_eq]; omega
          have hcont1 : cont1OK4 (0xF0 + c.toNat / 262144) (0x80 + (c.toNat / 4096) % 64)
              = true := by
            unfold cont1OK4 isCont
            split
            · next heq =>
              have h0 : c.toNat / 262144 = 0 := by omega
              simp only [Bool.and_eq_true, decide_eq_true_eq]
              omega
            · split
              · next heq =>
                have h4 : c.toNat / 262144 = 4 := by omega
                simp only [Bool.and_eq_true, decide_eq_true_eq]
                omega
              · simp only [Bool.and_eq_true, decide_eq_true_eq]
                omega
          have hcont2 : isCont (0x80 + (c.toNat / 64) % 64) = true := by
            simp only [isCont, Bool.and_eq_true, decide_eq_true_eq]; omega
          have hcont3 : isCont (0x80 + c.toNat % 64) = true := by
            simp only [isCont, Bool.and_eq_true, decide_eq_true_eq]; omega
          rw [if_neg hb1, hb2, if_neg Bool.false_ne_true, hb3,
            if_neg Bool.false_ne_true, if_pos hb4]
          simp only [hcont1, hcont2, hcont3, if_true]
          have harith : (0xF0 + c.toNat / 262144 - 0xF0) * 262144 +
              (0x80 + (c.toNat / 4096) % 64 - 0x80) * 4096 +
              (0x80 + (c.toNat / 64) % 64 - 0x80) * 64 + (0x80 + c.toNat % 64 - 0x80)
              = c.toNat := by omega
          rw [harith, hofNat]

/-- Decoding one encoded character at the head of a byte stream recovers
that character and proceeds with the rest. -/
theorem utf8DecodeReplace_encodeChar (c : Char) (rest : Bytes) :
    utf8DecodeReplace (utf8EncodeChar c ++ rest) = c :: utf8DecodeReplace rest := by
  obtain ⟨b, bs, heq, hstep⟩ := utf8Step_encodeChar c rest
  rw [heq, utf8DecodeReplace_cons, hstep]

/-- UTF-8 round trip: decoding an encoded string recovers the string. -/
theorem utf8DecodeReplace_utf8Encode (s : Str) :
    utf8DecodeReplace (utf8Encode s) = s := by
  induction s with
  | nil => simp [utf8Encode, utf8DecodeReplace_nil]
  | cons c cs ih =>
    rw [utf8Encode_cons, utf8DecodeReplace_encodeChar, ih]

/-! ## The pre-tokenization grammar

Model of `re.findall(PAT, text)` for the pattern
`'(?:[sdmt]|ll|ve|re)| ?\p{L}+| ?\p{N}+| ?[^\s\p{L}\p{N}]+|\s+(?!\S)|\s+`
used both by `train_bpe.py` and by `Tokenizer._encode_text`.  Alternatives
are tried left to right at each position; an optional leading U+0020 is
taken only when a class character follows (the regex backtracks otherwise);
`\s+(?!\S)` greedily matches a whitespace run minus a final whitespace kept
for the following token, or the whole run at end of input. -/

/-- Model of the regex class `\s` (whitespace). -/
def isSpaceChar (c : Char) : Bool :=
  c.toNat = 0x20 || (0x9 ≤ c.toNat && c.toNat ≤ 0xD) ||
  (0x1C ≤ c.toNat && c.toNat ≤ 0x1F) || c.toNat = 0x85 || c.toNat = 0xA0 ||
  c.toNat = 0x1680 || (0x2000 ≤ c.toNat && c.toNat ≤ 0x200A) ||
  c.toNat = 0x2028 || c.toNat = 0x2029 || c.toNat = 0x202F || c.toNat = 0x205F ||
  c.toNat = 0x3000

/-- Model of the regex class `\p{L}`: ASCII letters plus the Latin-1 and
Latin Extended letters.  The theorems below do not depend on the exact
extent of the class. -/
def isLetterChar (c : Char) : Bool :=
  ('A' ≤ c && c ≤ 'Z') || ('a' ≤ c && c ≤ 'z') ||
  (0xC0 ≤ c.toNat && c.toNat ≤ 0x24F && c.toNat ≠ 0xD7 && c.toNat ≠ 0xF7)

/-- Model of the regex class `\p{N}`: the decimal digits. -/
def isNumberChar (c : Char) : Bool := '0' ≤ c && c ≤ '9'

/-- Characters of the class `[^\s\p{L}\p{N}]`. -/
def isOtherChar (c : Char) : Bool :=
  !(isSpaceChar c) && !(isLetterChar c) && !(isNumberChar c)

/-- First alternative `'(?:[sdmt]|ll|ve|re)`: an apostrophe followed by one
of the contraction suffixes (tried in the pattern's order). -/
def matchContraction (cs : Str) : Option (Str × Str) :=
  match cs with
  | c0 :: c :: rest =>
    if c0 = '\'' then
      if c = 's' || c = 'd' || c = 'm' || c = 't' then some ([c0, c], rest)
      else if c = 'l' || c = 'v' || c = 'r' then
        match rest with
        | c2 :: rest2 =>
          if (c = 'l' && c2 = 'l') || (c = 'v' && c2 = 'e') || (c = 'r' && c2 = 'e') then
            some ([c0, c, c2], rest2)
          else none
        | [] => none
      else none
    else none
  | _ => none

/-- Alternatives of shape ` ?C+`: an optional single space (taken only when
a `C`-character follows, per backtracking) and a nonempty greedy run of the
class `C`. -/
def matchSpaceClassRun (p : Char → Bool) (cs : Str) : Option (Str × Str) :=
  match cs with
  | [] => none
  | c :: rest =>
    if c = ' ' && (match rest with | c1 :: _ => p c1 | [] => false) then
      some (c :: rest.takeWhile p, rest.dropWhile p)
    else if p c then some ((c :: rest).takeWhile p, (c :: rest).dropWhile p)
    else none

/-- Fifth alternative `\s+(?!\S)`: a whitespace run at end of input, or all
but the last character of a whitespace run otherwise (the lookahead forces
the greedy `\s+` to back off one character). -/
def matchTrailingWS (cs : Str) : Option (Str × Str) :=
  match cs with
  | [] => none
  | c :: rest =>
    if isSpaceChar c then
      let run := (c :: rest).takeWhile isSpaceChar
      let rest' := (c :: rest).dropWhile isSpaceChar
      if rest' = [] then some (run, [])
      else if 2 ≤ run.length then
        some (run.take (run.length - 1), run.drop (run.length - 1) ++ rest')
      else none
    else none

/-- Last alternative `\s+`: a nonempty greedy whitespace run. -/
def matchWS (cs : Str) : Option (Str × Str) :=
  match cs with
  | [] => none
  | c :: rest =>
    if isSpaceChar c then
      some ((c :: rest).takeWhile isSpaceChar, (c :: rest).dropWhile isSpaceChar)
    else none

/-- One match of the pattern `PAT` at the head of the text: the six
alternatives in the pattern's order, first success wins. -/
def matchPretoken (cs : Str) : Option (Str × Str) :=
  match matchContraction cs with
  | some r => some r
  | none =>
    match matchSpaceClassRun isLetterChar cs with
    | some r => some r
    | none =>
      match matchSpaceClassRun isNumberChar cs with
      | some r => some r
      | none =>
        match matchSpaceClassRun isOtherChar cs with
        | some r => some r
        | none =>
          match matchTrailingWS cs with
          | some r => some r
          | none => matchWS cs

theorem matchContraction_sound {cs tok rest : Str}
    (h : matchContraction cs = some (tok, rest)) : tok ++ rest = cs ∧ tok ≠ [] := by
  cases cs with
  | nil => simp [matchContraction] at h
  | cons c0 cs1 =>
    cases cs1 with
    | nil => simp [matchContraction] at h
    | cons c cs' =>
      simp only [matchContraction] at h
      split at h
      · split at h
        · rw [Option.some.injEq, Prod.mk.injEq] at h
          obtain ⟨rfl, rfl⟩ := h
          simp
        · split at h
          · cases cs' with
            | nil => simp at h
            | cons c2 rest2 =>
              simp only at h
              split at h
              · rw [Option.some.injEq, Prod.mk.injEq] at h
                obtain ⟨rfl, rfl⟩ := h
                simp
              · simp at h
          · simp at h
      · simp at h

theorem matchSpaceClassRun_sound {p : Char → Bool} {cs tok rest : Str}
    (h : matchSpaceClassRun p cs = some (tok, rest)) : tok ++ rest = cs ∧ tok ≠ [] := by
  cases cs with
  | nil => simp [matchSpaceClassRun] at h
  | cons c cs' =>
    simp only [matchSpaceClassRun] at h
    split at h
    · rw [Option.some.injEq, Prod.mk.injEq] at h
      obtain ⟨rfl, rfl⟩ := h
      refine ⟨?_, by simp⟩
      simp [List.takeWhile_append_dropWhile]
    · split at h
      · next hp =>
        rw [Option.some.injEq, Prod.mk.injEq] at h
        obtain ⟨rfl, rfl⟩ := h
        refine ⟨List.takeWhile_append_dropWhile _ _, ?_⟩
        simp [List.takeWhile_cons, hp]
      · simp at h

theorem matchTrailingWS_sound {cs tok rest : Str}
    (h : matchTrailingWS cs = some (tok, rest)) : tok ++ rest = cs ∧ tok ≠ [] := by
  cases cs with
  | nil => simp [matchTrailingWS] at h
  | cons c cs' =>
    simp only [matchTrailingWS] at h
    split at h
    · next hsp =>
      split at h
      · next hdrop =>
        rw [Option.some.injEq, Prod.mk.injEq] at h
        obtain ⟨rfl, rfl⟩ := h
        refine ⟨?_, by simp [List.takeWhile_cons, hsp]⟩
        have hfull := List.takeWhile_append_dropWhile isSpaceChar (c :: cs')
        rw [hdrop, List.append_nil] at hfull
        rw [List.append_nil, hfull]
      · split at h
        · next hlen =>
          rw [Option.some.injEq, Prod.mk.injEq] at h
          obtain ⟨rfl, rfl⟩ := h
          constructor
          · rw [← List.append_assoc, List.take_append_drop,
              List.takeWhile_append_dropWhile _ _]
          · have hne : ((c :: cs').takeWhile isSpaceChar).length - 1 ≠ 0 := by omega
            simp only [ne_eq, List.take_eq_nil_iff]
            push_neg
            refine ⟨hne, ?_⟩
            intro hnil
            rw [hnil] at hlen
            simp at hlen
        · simp at h
    · simp at h

theorem matchWS_sound {cs tok rest : Str}
    (h : matchWS cs = some (tok, rest)) : tok ++ rest = cs ∧ tok ≠ [] := by
  cases cs with
  | nil => simp [matchWS] at h
  | cons c cs' =>
    simp only [matchWS] at h
    split at h
    · next hsp =>
      rw [Option.some.injEq, Prod.mk.injEq] at h
      obtain ⟨rfl, rfl⟩ := h
      exact ⟨List.takeWhile_append_dropWhile _ _, by simp [List.takeWhile_cons, hsp]⟩
    · simp at h

/-- A successful pattern match consumes a nonempty prefix of the text. -/
theorem matchPretoken_sound {cs tok rest : Str}
    (h : matchPretoken cs = some (tok, rest)) : tok ++ rest = cs ∧ tok ≠ [] := by
  unfold matchPretoken at h
  split at h
  · next hc => exact matchContraction_sound (hc.trans h)
  · split at h
    · next hc => exact matchSpaceClassRun_sound (hc.trans h)
    · split at h
      · next hc => exact matchSpaceClassRun_sound (hc.trans h)
      · split at h
        · next hc => exact matchSpaceClassRun_sound (hc.trans h)
        · split at h
          · next hc => exact matchTrailingWS_sound (hc.trans h)
          · exact matchWS_sound h

/-- The pattern matches at every nonempty position: every character is a
letter, a number, whitespace, or `other`, and some alternative accepts each
case. -/
theorem matchPretoken_isSome (cs : Str) (hne : cs ≠ []) :
    (matchPretoken cs).isSome := by
  cases cs with
  | nil => exact absurd rfl hne
  | cons c rest =>
    cases h1 : matchContraction (c :: rest) with
    | some r => simp [matchPretoken, h1]
    | none =>
    cases h2 : matchSpaceClassRun isLetterChar (c :: rest) with
    | some r => simp [matchPretoken, h1, h2]
    | none =>
    cases h3 : matchSpaceClassRun isNumberChar (c :: rest) with
    | some r => simp [matchPretoken, h1, h2, h3]
    | none =>
    cases h4 : matchSpaceClassRun isOtherChar (c :: rest) with
    | some r => simp [matchPretoken, h1, h2, h3, h4]
    | none =>
    cases h5 : matchTrailingWS (c :: rest) with
    | some r => simp [matchPretoken, h1, h2, h3, h4, h5]
    | none =>
      simp only [matchPretoken, h1, h2, h3, h4, h5]
      by_cases hsp : isSpaceChar c
      · simp [matchWS, hsp]
      · exfalso
        have hcne : ¬ (c = ' ') := by
          rintro rfl
          simp [isSpaceChar] at hsp
        by_cases hl : isLetterChar c
        · have : matchSpaceClassRun isLetterChar (c :: rest) ≠ none := by
            simp only [matchSpaceClassRun]
            rw [if_neg (by simp [hcne]), if_pos hl]
            simp
          exact this h2
        · by_cases hn : isNumberChar c
          · have : matchSpaceClassRun isNumberChar (c :: rest) ≠ none := by
              simp only [matchSpaceClassRun]
              rw [if_neg (by simp [hcne]), if_pos hn]
              simp
            exact this h3
          · have ho : isOtherChar c := by simp [isOtherChar, hsp, hl, hn]
            have : matchSpaceClassRun isOtherChar (c :: rest) ≠ none := by
              simp only [matchSpaceClassRun]
              rw [if_neg (by simp [hcne]), if_pos ho]
              simp
            exact this h4

/-- Model of `re.findall(PAT, text)`: repeatedly take the match at the
current position (`re.findall` would skip an unmatched character, which
`matchPretoken_isSome` shows never happens for this pattern). -/
def preTokenize (cs : Str) : List Str :=
  match cs with
  | [] => []
  | c :: rest =>
    match h : matchPretoken (c :: rest) with
    | some p => p.1 :: preTokenize p.2
    | none => preTokenize rest
  termination_by cs.length
  decreasing_by
  · have hs := matchPretoken_sound h
    have h1 : p.1.length + p.2.length = (c :: rest).length := by
      rw [← hs.1]
      simp
    have h3 : 0 < p.1.length := List.length_pos.mpr hs.2
    simp only [List.length_cons] at h1 ⊢
    omega
  · simp

/-- The pre-tokens of a text concatenate back to the text: pre-tokenization
is a partition. -/
theorem preTokenize_flatten (cs : Str) : (preTokenize cs).flatten = cs := by
  induction cs using preTokenize.induct with
  | case1 => simp [preTokenize]
  | case2 c rest p h ih =>
    obtain ⟨happ, hne⟩ := matchPretoken_sound h
    rw [preTokenize, h]
    simp only [List.flatten_cons]
    rw [ih, happ]
  | case3 c rest h ih =>
    have := matchPretoken_isSome (c :: rest) (by simp)
    rw [h] at this
    simp at this
/-! ## Python dictionaries as ordered association lists -/

/-- Lookup in an insertion-ordered association list (`dict.get` / `dict[k]`). -/
def alookup {α β : Type} [DecidableEq α] (k : α) : List (α × β) → Option β
  | [] => none
  | kv :: rest => if kv.1 = k then some kv.2 else alookup k rest

/-- Python `d[k] = v`: overwrite the binding in place, or append a new one. -/
def dictInsert {α β : Type} [DecidableEq α] (k : α) (v : β) :
    List (α × β) → List (α × β)
  | [] => [(k, v)]
  | kv :: rest => if kv.1 = k then (k, v) :: rest else kv :: dictInsert k v rest

/-! ## The Tokenizer engine (`tokenizer.py`)

The constructed state of a `Tokenizer` object: the (possibly extended)
vocabulary, the merge list, the registered special tokens, the reverse
index `byte_to_id`, and the `merge_dict` lookup table. -/

structure Tokenizer where
  vocab : List (Nat × Bytes)
  merges : List (Bytes × Bytes)
  specialTokens : List Str
  byteToId : List (Bytes × Nat)
  mergeDict : List ((Nat × Nat) × Nat)
  deriving Repr, DecidableEq

/-- The reverse index `{v: k for k, v in self.vocab.items()}` (later
bindings overwrite earlier ones, as in a dict comprehension). -/
def revDict (vocab : List (Nat × Bytes)) : List (Bytes × Nat) :=
  vocab.foldl (fun d kv => dictInsert kv.2 kv.1 d) []

/-- `max(self.vocab.keys()) + 1 if self.vocab else 0`. -/
def nextFreeId (vocab : List (Nat × Bytes)) : Nat :=
  if vocab = [] then 0 else (vocab.map (fun kv => kv.1)).foldl max 0 + 1

/-- The special-token registration loop of `Tokenizer.__init__`: a special
token whose UTF-8 bytes are already indexed is reused; otherwise it is
appended to the vocabulary under the next fresh id. -/
def addSpecials : List Str → List (Nat × Bytes) × List (Bytes × Nat) × Nat →
    List (Nat × Bytes) × List (Bytes × Nat) × Nat
  | [], st => st
  | sp :: rest, (v, b2i, next) =>
    let sb := utf8Encode sp
    if (alookup sb b2i).isSome then addSpecials rest (v, b2i, next)
    else addSpecials rest (dictInsert next sb v, dictInsert sb next b2i, next + 1)

/-- The `merge_dict` construction loop of `Tokenizer.__init__`: merges whose
parts or concatenation are absent from the index are silently skipped. -/
def buildMergeDict (b2i : List (Bytes × Nat)) (merges : List (Bytes × Bytes)) :
    List ((Nat × Nat) × Nat) :=
  merges.foldl (fun md m =>
    match alookup m.1 b2i, alookup m.2 b2i with
    | some t1, some t2 =>
      match alookup (m.1 ++ m.2) b2i with
      | some mid => dictInsert (t1, t2) mid md
      | none => md
    | _, _ => md) []

/-- `Tokenizer.__init__(vocab, merges, special_tokens)`.  Construction is
total: the source performs no validation of the merge table against the
vocabulary and has no failure path. -/
def Tokenizer.init (vocab : List (Nat × Bytes)) (merges : List (Bytes × Bytes))
    (specialTokens : List Str) : Tokenizer :=
  let st := addSpecials specialTokens (vocab, revDict vocab, nextFreeId vocab)
  { vocab := st.1
    merges := merges
    specialTokens := specialTokens
    byteToId := st.2.1
    mergeDict := buildMergeDict st.2.1 merges }

/-- The inner while-loop of `_encode_text`: one left-to-right pass replacing
every non-overlapping adjacent occurrence of `(t1, t2)` by `m`, continuing
after each replacement. -/
def applyMerge (t1 t2 m : Nat) : List Nat → List Nat
  | x :: y :: rest =>
    if x = t1 && y = t2 then m :: applyMerge t1 t2 m rest
    else x :: applyMerge t1 t2 m (y :: rest)
  | xs => xs

/-- One merge rule of `_encode_text`: look up the rule's two ids and its
merged id; if any is missing the rule is skipped (`continue`). -/
def mergeStepFn (t : Tokenizer) (seq : List Nat) (m : Bytes × Bytes) : List Nat :=
  match alookup m.1 t.byteToId, alookup m.2 t.byteToId,
      alookup (m.1 ++ m.2) t.byteToId with
  | some t1, some t2, some mid => applyMerge t1 t2 mid seq
  | _, _, _ => seq

/-- Per-pre-token body of `_encode_text`: the UTF-8 bytes become byte-level
ids (`byte_to_id.get(bytes([b]), b)`), then every merge rule is applied
once, in the merge list's order. -/
def encodePretoken (t : Tokenizer) (pt : Str) : List Nat :=
  let initIds := (utf8Encode pt).map (fun b => (alookup [b] t.byteToId).getD b)
  t.merges.foldl (mergeStepFn t) initIds

/-- `Tokenizer._encode_text`. -/
def Tokenizer.encodeText (t : Tokenizer) (text : Str) : List Nat :=
  if text = [] then []
  else ((preTokenize text).map (encodePretoken t)).flatten

/-- Does the literal `sp` occur at the head of `cs`? -/
def litMatchesAt : Str → Str → Bool
  | [], _ => true
  | _ :: _, [] => false
  | a :: sp, c :: cs => a = c && litMatchesAt sp cs

theorem litMatchesAt_append {sp cs : Str} (h : litMatchesAt sp cs = true) :
    sp ++ cs.drop sp.length = cs := by
  induction sp generalizing cs with
  | nil => simp
  | cons a sp ih =>
    cases cs with
    | nil => simp [litMatchesAt] at h
    | cons c cs' =>
      simp only [litMatchesAt, Bool.and_eq_true, decide_eq_true_eq] at h
      obtain ⟨rfl, h2⟩ := h
      simp [ih h2]

/-- First special-token literal matching at the head of `cs`, trying the
registered literals in registration order exactly as the Python alternation
`"|".join(re.escape(token) for token in self.special_tokens)` does (no
sorting by length).  Only nonempty literals count as matches (the sources
always register nonempty special tokens). -/
def firstSpecialAt (specials : List Str) (cs : Str) : Option Str :=
  match specials with
  | [] => none
  | sp :: rest =>
    if sp ≠ [] && litMatchesAt sp cs then some sp else firstSpecialAt rest cs

theorem firstSpecialAt_sound {specials : List Str} {cs sp : Str}
    (h : firstSpecialAt specials cs = some sp) :
    sp ∈ specials ∧ sp ≠ [] ∧ litMatchesAt sp cs = true := by
  induction specials with
  | nil => simp [firstSpecialAt] at h
  | cons sp0 rest ih =>
    simp only [firstSpecialAt] at h
    split at h
    · next hcond =>
      rw [Option.some.injEq] at h
      subst h
      simp only [Bool.and_eq_true, ne_eq, decide_eq_true_eq] at hcond
      exact ⟨List.mem_cons_self _ _, by simpa using hcond.1, hcond.2⟩
    · have := ih h
      exact ⟨List.mem_cons_of_mem _ this.1, this.2⟩

/-- The scan of `re.split(f'({special_pattern})', text)`: `acc` holds the
(reversed) pending plain span; a match emits the plain span and the literal
and restarts after it.  The result alternates plain parts (possibly empty,
as `re.split` produces) and matched literals. -/
def reSplitGo (specials : List Str) (acc cs : Str) : List Str :=
  match cs with
  | [] => [acc.reverse]
  | c :: rest =>
    match h : firstSpecialAt specials (c :: rest) with
    | some sp => acc.reverse :: sp :: reSplitGo specials [] ((c :: rest).drop sp.length)
    | none => reSplitGo specials (c :: acc) rest
  termination_by cs.length
  decreasing_by
  · obtain ⟨hmem, hne, hmatch⟩ := firstSpecialAt_sound h
    have hpos : 0 < sp.length := List.length_pos.mpr hne
    simp only [List.length_drop, List.length_cons]
    omega
  · simp

/-- `re.split` with the capturing special-token alternation, as used by
`Tokenizer.encode`. -/
def reSplitKeep (specials : List Str) (text : Str) : List Str :=
  reSplitGo specials [] text

/-- `Tokenizer.encode`. -/
def Tokenizer.encode (t : Tokenizer) (text : Str) : List Nat :=
  if text = [] then []
  else if t.specialTokens ≠ [] then
    (reSplitKeep t.specialTokens text).foldl (fun acc part =>
      if part = [] then acc
      else if part ∈ t.specialTokens then
        match alookup (utf8Encode part) t.byteToId with
        | some tokenId => acc ++ [tokenId]
        | none => acc
      else acc ++ t.encodeText part) []
  else t.encodeText text

/-- The byte-collection loop of `Tokenizer.decode`: concatenate `vocab[id]`
for every id, silently skipping ids absent from the vocabulary. -/
def decodeBytes (t : Tokenizer) (ids : List Nat) : Bytes :=
  ids.foldl (fun acc tokenId =>
    match alookup tokenId t.vocab with
    | some bs => acc ++ bs
    | none => acc) []

/-- `Tokenizer.decode`: collect the bytes, then decode as UTF-8 with
replacement. -/
def Tokenizer.decode (t : Tokenizer) (ids : List Nat) : Str :=
  if ids = [] then []
  else utf8DecodeReplace (decodeBytes t ids)

/-- Python `buffer.rfind('\n')`: the index of the last newline. -/
def rfindNewline : Str → Option Nat
  | [] => none
  | c :: rest =>
    match rfindNewline rest with
    | some i => some (i + 1)
    | none => if c = '\n' then some 0 else none

theorem rfindNewline_lt {cs : Str} {i : Nat} (h : rfindNewline cs = some i) :
    i < cs.length := by
  induction cs generalizing i with
  | nil => simp [rfindNewline] at h
  | cons c rest ih =>
    simp only [rfindNewline] at h
    split at h
    · next j hj =>
      rw [Option.some.injEq] at h
      subst h
      have := ih hj
      simp only [List.length_cons]
      omega
    · split at h
      · rw [Option.some.injEq] at h
        subst h
        simp
      · simp at h

/-- The inner `while` loop of `encode_iterable`: flush every complete line
(up to and including the last newline), or the leading 1024 characters when
the newline-free buffer exceeds 1024 characters; return the emitted ids and
the remaining buffer. -/
def flushBuffer (t : Tokenizer) (buffer : Str) : List Nat × Str :=
  if hw : ('\n' ∈ buffer) ∨ 1024 < buffer.length then
    match h : rfindNewline buffer with
    | some i =>
      let toProcess := buffer.take (i + 1)
      let ids := if toProcess ≠ [] then t.encode toProcess else []
      let out := flushBuffer t (buffer.drop (i + 1))
      (ids ++ out.1, out.2)
    | none =>
      let toProcess := buffer.take 1024
      let ids := if toProcess ≠ [] then t.encode toProcess else []
      let out := flushBuffer t (buffer.drop 1024)
      (ids ++ out.1, out.2)
  else ([], buffer)
  termination_by buffer.length
  decreasing_by
  · have := rfindNewline_lt h
    simp only [List.length_drop]
    omega
  · have hnl : ¬ ('\n' ∈ buffer) := by
      intro hmem
      induction buffer with
      | nil => simp at hmem
      | cons c rest ih =>
        simp only [rfindNewline] at h
        split at h
        · simp at h
        · next hnone =>
          split at h
          · simp at h
          · next hc =>
            rcases List.mem_cons.mp hmem with hh | hh
            · exact hc hh.symm
            · exact ih (Or.inl hh) hnone hh
    have hlen : 1024 < buffer.length := by
      rcases hw with hmem | hlen
      · exact absurd hmem hnl
      · exact hlen
    simp only [List.length_drop]
    omega

/-- `Tokenizer.encode_iterable`, with the lazily yielded ids materialised
in order: fold the chunks through the buffer, flushing as the source does,
then encode any remaining buffered text. -/
def Tokenizer.encodeIterable (t : Tokenizer) (chunks : List Str) : List Nat :=
  let st := chunks.foldl (fun (st : List Nat × Str) chunk =>
    let out := flushBuffer t (st.2 ++ chunk)
    (st.1 ++ out.1, out.2)) ([], [])
  if st.2 ≠ [] then st.1 ++ t.encode st.2 else st.1
/-! ## Dictionary lemmas -/

theorem alookup_dictInsert {α β : Type} [DecidableEq α] (k k' : α) (v : β)
    (d : List (α × β)) :
    alookup k' (dictInsert k v d) = if k' = k then some v else alookup k' d := by
  induction d with
  | nil =>
    by_cases h : k' = k
    · simp [dictInsert, alookup, h]
    · have h' : ¬ (k = k') := fun hh => h hh.symm
      simp [dictInsert, alookup, h, h']
  | cons kv rest ih =>
    by_cases h1 : kv.1 = k
    · by_cases h2 : k' = k
      · simp [dictInsert, alookup, h1, h2]
      · have h2' : ¬ (k = k') := fun hh => h2 hh.symm
        simp [dictInsert, alookup, h1, h2, h2']
    · by_cases h3 : kv.1 = k'
      · have h2 : ¬ (k' = k) := fun hk => h1 (h3.trans hk)
        simp [dictInsert, alookup, h1, h2, h3]
      · simp [dictInsert, alookup, h1, h3, ih]

theorem alookup_mem {α β : Type} [DecidableEq α] {k : α} {v : β}
    {d : List (α × β)} (h : alookup k d = some v) : (k, v) ∈ d := by
  induction d with
  | nil => simp [alookup] at h
  | cons kv rest ih =>
    simp only [alookup] at h
    split at h
    · next hk =>
      rw [Option.some.injEq] at h
      refine List.mem_cons.mpr (Or.inl ?_)
      cases kv
      simp_all
    · exact List.mem_cons.mpr (Or.inr (ih h))

theorem alookup_of_mem_nodup {α β : Type} [DecidableEq α] {d : List (α × β)}
    (hnd : (d.map (fun kv => kv.1)).Nodup) {k : α} {v : β}
    (hmem : (k, v) ∈ d) : alookup k d = some v := by
  induction d with
  | nil => simp at hmem
  | cons kv rest ih =>
    simp only [List.map_cons, List.nodup_cons] at hnd
    rcases List.mem_cons.mp hmem with heq | hmem'
    · rw [← heq]
      simp [alookup]
    · have hk1 : ¬ (kv.1 = k) := by
        intro hk
        apply hnd.1
        rw [hk]
        exact List.mem_map.mpr ⟨(k, v), hmem', rfl⟩
      simp only [alookup, hk1, if_false]
      exact ih hnd.2 hmem'

theorem alookup_dictInsert_isSome {α β : Type} [DecidableEq α] {k' : α}
    (k : α) (v : β) {d : List (α × β)} (h : (alookup k' d).isSome) :
    (alookup k' (dictInsert k v d)).isSome := by
  rw [alookup_dictInsert]
  split <;> simp_all

/-! ## Invariants established by `Tokenizer.__init__` -/

/-- Everything the reverse-index fold produces comes from a vocabulary item
(or from the seed dictionary). -/
theorem revDictAux_lookup {vocab : List (Nat × Bytes)} :
    ∀ {d0 : List (Bytes × Nat)} {bs : Bytes} {tokenId : Nat},
    alookup bs (vocab.foldl (fun d kv => dictInsert kv.2 kv.1 d) d0) = some tokenId →
    (tokenId, bs) ∈ vocab ∨ alookup bs d0 = some tokenId := by
  induction vocab with
  | nil =>
    intro d0 bs tokenId h
    exact Or.inr h
  | cons kv rest ih =>
    intro d0 bs tokenId h
    simp only [List.foldl_cons] at h
    rcases ih h with hmem | hd
    · exact Or.inl (List.mem_cons_of_mem _ hmem)
    · rw [alookup_dictInsert] at hd
      split at hd
      · next heq =>
        rw [Option.some.injEq] at hd
        refine Or.inl (List.mem_cons.mpr (Or.inl ?_))
        cases kv
        simp_all
      · exact Or.inr hd

/-- The reverse-index fold never loses seed entries. -/
theorem revDictAux_mono {vocab : List (Nat × Bytes)} :
    ∀ {d0 : List (Bytes × Nat)} {bs : Bytes}, (alookup bs d0).isSome →
    (alookup bs (vocab.foldl (fun d kv => dictInsert kv.2 kv.1 d) d0)).isSome := by
  induction vocab with
  | nil =>
    intro d0 bs h
    exact h
  | cons kv rest ih =>
    intro d0 bs h
    simp only [List.foldl_cons]
    exact ih (alookup_dictInsert_isSome _ _ h)

/-- Values present in the vocabulary are reachable through the reverse
index. -/
theorem revDictAux_isSome {vocab : List (Nat × Bytes)} {kv : Nat × Bytes}
    (hmem : kv ∈ vocab) :
    ∀ d0 : List (Bytes × Nat),
    (alookup kv.2 (vocab.foldl (fun d kv => dictInsert kv.2 kv.1 d) d0)).isSome := by
  induction vocab with
  | nil => simp at hmem
  | cons kv0 rest ih =>
    intro d0
    simp only [List.foldl_cons]
    rcases List.mem_cons.mp hmem with rfl | hmem'
    · refine revDictAux_mono ?_
      rw [alookup_dictInsert, if_pos rfl]
      simp
    · exact ih hmem' _

theorem foldl_max_init_le (l : List Nat) (b : Nat) : b ≤ l.foldl max b := by
  induction l generalizing b with
  | nil => exact Nat.le_refl b
  | cons x rest ih => exact Nat.le_trans (Nat.le_max_left b x) (ih (max b x))

theorem mem_le_foldl_max {l : List Nat} {a : Nat} (h : a ∈ l) (b : Nat) :
    a ≤ l.foldl max b := by
  induction l generalizing b with
  | nil => simp at h
  | cons x rest ih =>
    rcases List.mem_cons.mp h with rfl | h'
    · exact Nat.le_trans (Nat.le_max_right b a) (foldl_max_init_le rest (max b a))
    · exact ih h' (max b x)

/-- Every id the initial reverse index can return is below the first free
id. -/
theorem revDict_lt_nextFreeId {vocab : List (Nat × Bytes)} {bs : Bytes}
    {tokenId : Nat} (h : alookup bs (revDict vocab) = some tokenId) :
    tokenId < nextFreeId vocab := by
  rcases revDictAux_lookup h with hmem | hd
  · have hkey : tokenId ∈ vocab.map (fun kv => kv.1) :=
      List.mem_map.mpr ⟨(tokenId, bs), hmem, rfl⟩
    have hne : ¬ (vocab = []) := by
      intro hnil
      rw [hnil] at hmem
      simp at hmem
    unfold nextFreeId
    rw [if_neg hne]
    exact Nat.lt_succ_of_le (mem_le_foldl_max hkey 0)
  · simp [alookup] at hd

/-- With duplicate-free vocabulary keys, the initial reverse index inverts
the vocabulary. -/
theorem revDict_inverse {vocab : List (Nat × Bytes)}
    (hnd : (vocab.map (fun kv => kv.1)).Nodup) {bs : Bytes} {tokenId : Nat}
    (h : alookup bs (revDict vocab) = some tokenId) :
    alookup tokenId vocab = some bs := by
  rcases revDictAux_lookup h with hmem | hd
  · exact alookup_of_mem_nodup hnd hmem
  · simp [alookup] at hd

/-- The special-token loop preserves (and extends) the inverse-index
property together with the bound on produced ids. -/
theorem addSpecials_inverse (l : List Str) :
    ∀ (v : List (Nat × Bytes)) (d : List (Bytes × Nat)) (next : Nat),
    (∀ bs tokenId, alookup bs d = some tokenId →
      alookup tokenId v = some bs ∧ tokenId < next) →
    ∀ bs tokenId, alookup bs (addSpecials l (v, d, next)).2.1 = some tokenId →
      alookup tokenId (addSpecials l (v, d, next)).1 = some bs := by
  induction l with
  | nil =>
    intro v d next h bs tokenId hl
    exact (h bs tokenId hl).1
  | cons sp rest ih =>
    intro v d next h bs tokenId hl
    simp only [addSpecials] at hl ⊢
    by_cases hc : ((alookup (utf8Encode sp) d).isSome = true)
    · rw [if_pos hc] at hl ⊢
      exact ih v d next h bs tokenId hl
    · rw [if_neg hc] at hl ⊢
      refine ih _ _ _ ?_ bs tokenId hl
      intro bs' tokenId' hl'
      rw [alookup_dictInsert] at hl'
      split at hl'
      · next heq =>
        rw [Option.some.injEq] at hl'
        subst hl'
        constructor
        · rw [alookup_dictInsert, if_pos rfl, heq]
        · omega
      · obtain ⟨hv, hlt⟩ := h bs' tokenId' hl'
        constructor
        · rw [alookup_dictInsert, if_neg (by omega)]
          exact hv
        · omega

/-- The special-token loop never removes reverse-index entries. -/
theorem addSpecials_mono (l : List Str) :
    ∀ (v : List (Nat × Bytes)) (d : List (Bytes × Nat)) (next : Nat) (bs : Bytes),
    (alookup bs d).isSome → (alookup bs (addSpecials l (v, d, next)).2.1).isSome := by
  induction l with
  | nil =>
    intro v d next bs h
    exact h
  | cons sp rest ih =>
    intro v d next bs h
    simp only [addSpecials]
    split
    · exact ih v d next bs h
    · exact ih _ _ _ bs (alookup_dictInsert_isSome _ _ h)

/-- After the loop, every registered special token is indexed. -/
theorem addSpecials_present {sp : Str} (l : List Str) (hmem : sp ∈ l) :
    ∀ (v : List (Nat × Bytes)) (d : List (Bytes × Nat)) (next : Nat),
    (alookup (utf8Encode sp) (addSpecials l (v, d, next)).2.1).isSome := by
  induction l with
  | nil => simp at hmem
  | cons sp0 rest ih =>
    intro v d next
    rcases List.mem_cons.mp hmem with rfl | hmem'
    · simp only [addSpecials]
      split
      · next hpresent => exact addSpecials_mono rest v d next _ hpresent
      · refine addSpecials_mono rest _ _ _ _ ?_
        rw [alookup_dictInsert, if_pos rfl]
        simp
    · simp only [addSpecials]
      split
      · exact ih hmem' v d next
      · exact ih hmem' _ _ _

/-- Key uniqueness of the (Python-dict) vocabulary argument. -/
def keysNodup (vocab : List (Nat × Bytes)) : Prop :=
  (vocab.map (fun kv => kv.1)).Nodup

/-- The vocabulary supplies an id for every single-byte sequence. -/
def byteComplete (vocab : List (Nat × Bytes)) : Prop :=
  ∀ b : Nat, b < 256 → ∃ kv ∈ vocab, kv.2 = [b]

/-- The inverse-index consistency of a constructed tokenizer: every id the
reverse index returns maps back to the byte sequence it was indexed by. -/
def InverseIndex (t : Tokenizer) : Prop :=
  ∀ bs tokenId, alookup bs t.byteToId = some tokenId →
    alookup tokenId t.vocab = some bs

theorem init_inverse {vocab : List (Nat × Bytes)} {merges : List (Bytes × Bytes)}
    {specials : List Str} (hnd : keysNodup vocab) :
    InverseIndex (Tokenizer.init vocab merges specials) := by
  intro bs tokenId h
  exact addSpecials_inverse specials vocab (revDict vocab) (nextFreeId vocab)
    (fun bs' tokenId' hl =>
      ⟨revDict_inverse hnd hl, revDict_lt_nextFreeId hl⟩) bs tokenId h

theorem init_byteLookup {vocab : List (Nat × Bytes)} {merges : List (Bytes × Bytes)}
    {specials : List Str} (hbc : byteComplete vocab) :
    ∀ b : Nat, b < 256 →
    (alookup [b] (Tokenizer.init vocab merges specials).byteToId).isSome := by
  intro b hb
  obtain ⟨kv, hkv, hval⟩ := hbc b hb
  have h0 : (alookup [b] (revDict vocab)).isSome := by
    have := revDictAux_isSome hkv ([] : List (Bytes × Nat))
    rw [hval] at this
    exact this
  exact addSpecials_mono specials vocab (revDict vocab) (nextFreeId vocab) [b] h0

theorem init_specialLookup {vocab : List (Nat × Bytes)} {merges : List (Bytes × Bytes)}
    {specials : List Str} {sp : Str} (hmem : sp ∈ specials) :
    (alookup (utf8Encode sp) (Tokenizer.init vocab merges specials).byteToId).isSome :=
  addSpecials_present specials hmem vocab (revDict vocab) (nextFreeId vocab)
/-! ## Bytes are preserved from encoding through decoding -/

/-- The bytes `decode` would contribute for one id. -/
def vocabBytes (t : Tokenizer) (tokenId : Nat) : Bytes :=
  match alookup tokenId t.vocab with
  | some bs => bs
  | none => []

theorem decodeBytesAux (t : Tokenizer) (ids : List Nat) :
    ∀ acc : Bytes,
    ids.foldl (fun acc tokenId =>
      match alookup tokenId t.vocab with
      | some bs => acc ++ bs
      | none => acc) acc = acc ++ (ids.map (vocabBytes t)).flatten := by
  induction ids with
  | nil => intro acc; simp
  | cons x ids ih =>
    intro acc
    simp only [List.foldl_cons, List.map_cons, List.flatten_cons]
    rw [ih]
    have hstep : (match alookup x t.vocab with
        | some bs => acc ++ bs
        | none => acc) = acc ++ vocabBytes t x := by
      unfold vocabBytes
      cases alookup x t.vocab <;> simp
    rw [hstep, List.append_assoc]

/-- `decodeBytes` is the flattened per-id byte map. -/
theorem decodeBytes_eq (t : Tokenizer) (ids : List Nat) :
    decodeBytes t ids = (ids.map (vocabBytes t)).flatten := by
  unfold decodeBytes
  rw [decodeBytesAux]
  simp

theorem decodeBytes_append (t : Tokenizer) (ids ids' : List Nat) :
    decodeBytes t (ids ++ ids') = decodeBytes t ids ++ decodeBytes t ids' := by
  simp [decodeBytes_eq]

/-- A merge pass never changes the byte expansion of the sequence, provided
the three ids expand as the rule promises. -/
theorem applyMerge_decodeBytes (t : Tokenizer) {t1 t2 m : Nat} {b1 b2 : Bytes}
    (h1 : alookup t1 t.vocab = some b1) (h2 : alookup t2 t.vocab = some b2)
    (hm : alookup m t.vocab = some (b1 ++ b2)) :
    ∀ seq : List Nat,
    decodeBytes t (applyMerge t1 t2 m seq) = decodeBytes t seq := by
  intro seq
  induction seq using applyMerge.induct t1 t2 m with
  | case1 x y rest hxy ih =>
    rw [applyMerge, if_pos hxy]
    simp only [Bool.and_eq_true, decide_eq_true_eq] at hxy
    obtain ⟨rfl, rfl⟩ := hxy
    simp only [decodeBytes_eq, List.map_cons, List.flatten_cons] at ih ⊢
    rw [ih]
    unfold vocabBytes
    rw [h1, h2, hm]
    simp
  | case2 x y rest hxy ih =>
    rw [applyMerge, if_neg hxy]
    simp only [decodeBytes_eq, List.map_cons, List.flatten_cons] at ih ⊢
    rw [ih]
  | case3 xs hxs =>
    rcases xs with _ | ⟨x, _ | ⟨y, rest⟩⟩
    · rfl
    · rfl
    · exact absurd rfl (hxs x y rest)

/-- One merge step of `_encode_text` preserves the byte expansion. -/
theorem mergeStepFn_decodeBytes {t : Tokenizer} (hinv : InverseIndex t)
    (seq : List Nat) (m : Bytes × Bytes) :
    decodeBytes t (mergeStepFn t seq m) = decodeBytes t seq := by
  unfold mergeStepFn
  cases hm1 : alookup m.1 t.byteToId with
  | none => rfl
  | some t1 =>
    cases hm2 : alookup m.2 t.byteToId with
    | none => rfl
    | some t2 =>
      cases hm3 : alookup (m.1 ++ m.2) t.byteToId with
      | none => rfl
      | some mid =>
        exact applyMerge_decodeBytes t (hinv _ _ hm1) (hinv _ _ hm2)
          (hinv _ _ hm3) seq

theorem foldl_mergeStepFn_decodeBytes {t : Tokenizer} (hinv : InverseIndex t)
    (l : List (Bytes × Bytes)) :
    ∀ seq : List Nat, decodeBytes t (l.foldl (mergeStepFn t) seq) = decodeBytes t seq := by
  induction l with
  | nil => intro seq; rfl
  | cons m rest ih =>
    intro seq
    simp only [List.foldl_cons]
    rw [ih, mergeStepFn_decodeBytes hinv]

/-- Every byte produced by the UTF-8 encoder is below 256. -/
theorem utf8EncodeChar_lt (c : Char) : ∀ b ∈ utf8EncodeChar c, b < 256 := by
  intro b hb
  have hvalid : Nat.isValidChar c.toNat := c.valid
  have hub : c.toNat < 0x110000 := by
    rcases hvalid with h | ⟨_, h⟩
    · omega
    · exact h
  simp only [utf8EncodeChar] at hb
  split at hb
  · simp only [List.mem_singleton] at hb
    omega
  · split at hb
    · next h1 h2 =>
      simp only [List.mem_cons, List.mem_singleton] at hb
      rcases hb with rfl | rfl | hb
      · omega
      · omega
      · simp at hb
    · split at hb
      · next h1 h2 h3 =>
        simp only [List.mem_cons, List.mem_singleton] at hb
        rcases hb with rfl | rfl | rfl | hb
        · omega
        · omega
        · omega
        · simp at hb
      · next h1 h2 h3 =>
        simp only [List.mem_cons, List.mem_singleton] at hb
        rcases hb with rfl | rfl | rfl | rfl | hb
        · omega
        · omega
        · omega
        · omega
        · simp at hb

theorem utf8Encode_lt (s : Str) : ∀ b ∈ utf8Encode s, b < 256 := by
  intro b hb
  unfold utf8Encode at hb
  rw [List.mem_flatten] at hb
  obtain ⟨l, hl, hbl⟩ := hb
  rw [List.mem_map] at hl
  obtain ⟨c, _, rfl⟩ := hl
  exact utf8EncodeChar_lt c b hbl

/-- The initial byte-id sequence of `_encode_text` expands to exactly the
pre-token's bytes, when the vocabulary covers the byte alphabet. -/
theorem initIds_decodeBytes {t : Tokenizer} (hinv : InverseIndex t)
    (hbyte : ∀ b : Nat, b < 256 → (alookup [b] t.byteToId).isSome)
    (bs : Bytes) (hbs : ∀ b ∈ bs, b < 256) :
    decodeBytes t (bs.map (fun b => (alookup [b] t.byteToId).getD b)) = bs := by
  induction bs with
  | nil => rfl
  | cons b rest ih =>
    have hb : b < 256 := hbs b (List.mem_cons_self _ _)
    obtain ⟨tokenId, hid⟩ := Option.isSome_iff_exists.mp (hbyte b hb)
    have hvb : vocabBytes t tokenId = [b] := by
      unfold vocabBytes
      rw [hinv _ _ hid]
    have ih' := ih (fun b' hb' => hbs b' (List.mem_cons_of_mem _ hb'))
    rw [decodeBytes_eq] at ih' ⊢
    simp only [List.map_cons, List.flatten_cons, hid, Option.getD_some, hvb, ih']
    rfl

/-- A pre-token's final id sequence expands to the pre-token's UTF-8
bytes. -/
theorem encodePretoken_decodeBytes {t : Tokenizer} (hinv : InverseIndex t)
    (hbyte : ∀ b : Nat, b < 256 → (alookup [b] t.byteToId).isSome) (pt : Str) :
    decodeBytes t (encodePretoken t pt) = utf8Encode pt := by
  unfold encodePretoken
  rw [foldl_mergeStepFn_decodeBytes hinv]
  exact initIds_decodeBytes hinv hbyte (utf8Encode pt) (utf8Encode_lt pt)

theorem decodeBytes_flatten (t : Tokenizer) (idss : List (List Nat)) :
    decodeBytes t idss.flatten = (idss.map (decodeBytes t)).flatten := by
  induction idss with
  | nil => rfl
  | cons ids rest ih =>
    simp only [List.flatten_cons, List.map_cons]
    rw [decodeBytes_append, ih]

theorem utf8Encode_flatten (ls : List Str) :
    utf8Encode ls.flatten = (ls.map utf8Encode).flatten := by
  induction ls with
  | nil => rfl
  | cons l rest ih =>
    simp only [List.flatten_cons, List.map_cons]
    rw [utf8Encode_append, ih]

/-- `_encode_text` output expands to the text's UTF-8 bytes. -/
theorem encodeText_decodeBytes {t : Tokenizer} (hinv : InverseIndex t)
    (hbyte : ∀ b : Nat, b < 256 → (alookup [b] t.byteToId).isSome) (text : Str) :
    decodeBytes t (t.encodeText text) = utf8Encode text := by
  unfold Tokenizer.encodeText
  split
  · next heq => rw [heq]; rfl
  · rw [decodeBytes_flatten, List.map_map]
    have hpt : (preTokenize text).map (decodeBytes t ∘ encodePretoken t)
        = (preTokenize text).map utf8Encode := by
      apply List.map_congr_left
      intro pt _
      exact encodePretoken_decodeBytes hinv hbyte pt
    rw [hpt, ← utf8Encode_flatten, preTokenize_flatten]
/-- The split-with-delimiters scan reconstructs the text. -/
theorem reSplitGo_flatten (specials : List Str) :
    ∀ (acc cs : Str), (reSplitGo specials acc cs).flatten = acc.reverse ++ cs := by
  intro acc cs
  induction acc, cs using reSplitGo.induct specials with
  | case1 acc => simp [reSplitGo]

  | case2 acc c rest sp h ih =>
    obtain ⟨hmem, hne, hmatch⟩ := firstSpecialAt_sound h
    rw [reSplitGo, h]
    simp only [List.flatten_cons, List.reverse_nil, List.nil_append] at ih ⊢
    rw [ih, litMatchesAt_append hmatch]
  | case3 acc c rest h ih =>
    rw [reSplitGo, h]
    rw [ih]
    simp

theorem reSplitKeep_flatten (specials : List Str) (text : Str) :
    (reSplitKeep specials text).flatten = text := by
  unfold reSplitKeep
  rw [reSplitGo_flatten]
  simp

/-- The byte expansion of one part processed by `encode`'s special-token
loop. -/
theorem encodePart_decodeBytes {t : Tokenizer} (hinv : InverseIndex t)
    (hbyte : ∀ b : Nat, b < 256 → (alookup [b] t.byteToId).isSome)
    (hspec : ∀ sp ∈ t.specialTokens, (alookup (utf8Encode sp) t.byteToId).isSome)
    (parts : List Str) :
    ∀ acc : List Nat,
    decodeBytes t (parts.foldl (fun acc part =>
      if part = [] then acc
      else if part ∈ t.specialTokens then
        match alookup (utf8Encode part) t.byteToId with
        | some tokenId => acc ++ [tokenId]
        | none => acc
      else acc ++ t.encodeText part) acc)
      = decodeBytes t acc ++ utf8Encode parts.flatten := by
  induction parts with
  | nil => intro acc; simp [utf8Encode]
  | cons part rest ih =>
    intro acc
    simp only [List.foldl_cons, List.flatten_cons, utf8Encode_append]
    rw [ih]
    by_cases hempty : part = []
    · rw [if_pos hempty, hempty]
      simp [utf8Encode]
    · rw [if_neg hempty]
      by_cases hsp : part ∈ t.specialTokens
      · rw [if_pos hsp]
        obtain ⟨tokenId, hid⟩ := Option.isSome_iff_exists.mp (hspec part hsp)
        rw [hid, decodeBytes_append]
        have hone : decodeBytes t [tokenId] = utf8Encode part := by
          rw [decodeBytes_eq]
          simp only [List.map_cons, List.map_nil, List.flatten_cons,
            List.flatten_nil, List.append_nil]
          unfold vocabBytes
          rw [hinv _ _ hid]
        rw [hone, List.append_assoc]
      · rw [if_neg hsp, decodeBytes_append,
          encodeText_decodeBytes hinv hbyte, List.append_assoc]

/-- The byte expansion of the full `encode` output is the UTF-8 encoding of
the input text. -/
theorem encode_decodeBytes {t : Tokenizer} (hinv : InverseIndex t)
    (hbyte : ∀ b : Nat, b < 256 → (alookup [b] t.byteToId).isSome)
    (hspec : ∀ sp ∈ t.specialTokens, (alookup (utf8Encode sp) t.byteToId).isSome)
    (text : Str) :
    decodeBytes t (t.encode text) = utf8Encode text := by
  unfold Tokenizer.encode
  split
  · next heq => rw [heq]; rfl
  · split
    · rw [encodePart_decodeBytes hinv hbyte hspec]
      rw [reSplitKeep_flatten]
      rfl
    · exact encodeText_decodeBytes hinv hbyte text

theorem utf8EncodeChar_ne_nil (c : Char) : utf8EncodeChar c ≠ [] := by
  simp only [utf8EncodeChar]
  split
  · simp
  · split
    · simp
    · split <;> simp

theorem utf8Encode_eq_nil {s : Str} (h : utf8Encode s = []) : s = [] := by
  cases s with
  | nil => rfl
  | cons c rest =>
    rw [utf8Encode_cons] at h
    exact absurd (List.append_eq_nil.mp h).1 (utf8EncodeChar_ne_nil c)

/-- Decoding is UTF-8 decoding of the collected bytes (the `ids = []` guard
agrees with the general case). -/
theorem decode_eq_decodeBytes (t : Tokenizer) (ids : List Nat) :
    t.decode ids = utf8DecodeReplace (decodeBytes t ids) := by
  unfold Tokenizer.decode
  split
  · next heq =>
    rw [heq]
    unfold decodeBytes
    simp [utf8DecodeReplace_nil]
  · rfl

/-- C1, general form: a tokenizer constructed from a duplicate-free
vocabulary covering the byte alphabet round-trips every string. -/
theorem roundtrip (vocab : List (Nat × Bytes)) (merges : List (Bytes × Bytes))
    (specials : List Str) (hnd : keysNodup vocab) (hbc : byteComplete vocab)
    (s : Str) :
    (Tokenizer.init vocab merges specials).decode
      ((Tokenizer.init vocab merges specials).encode s) = s := by
  have hinv : InverseIndex (Tokenizer.init vocab merges specials) :=
    init_inverse hnd
  have hbyte := @init_byteLookup vocab merges specials hbc
  have hspec : ∀ sp ∈ (Tokenizer.init vocab merges specials).specialTokens,
      (alookup (utf8Encode sp) (Tokenizer.init vocab merges specials).byteToId).isSome :=
    fun sp hsp => init_specialLookup hsp
  rw [decode_eq_decodeBytes, encode_decodeBytes hinv hbyte hspec,
    utf8DecodeReplace_utf8Encode]
/-! ## The BPE trainer (`train_bpe.py`)

The file read (`open(input_path).read()`) is I/O outside the model: the
trainer is embedded as a function of the file's text. -/

/-- The scan of `re.split(special_pattern, text)` (no capture group):
delimiters are dropped.  With an empty special-token list the alternation
is empty and, per the `regex` module's default (V0) behaviour of not
splitting on zero-width matches, the text stays one chunk. -/
def reSplitDropGo (specials : List Str) (acc cs : Str) : List Str :=
  match cs with
  | [] => [acc.reverse]
  | c :: rest =>
    match h : firstSpecialAt specials (c :: rest) with
    | some sp => acc.reverse :: reSplitDropGo specials [] ((c :: rest).drop sp.length)
    | none => reSplitDropGo specials (c :: acc) rest
  termination_by cs.length
  decreasing_by
  · obtain ⟨hmem, hne, hmatch⟩ := firstSpecialAt_sound h
    have hpos : 0 < sp.length := List.length_pos.mpr hne
    simp only [List.length_drop, List.length_cons]
    omega
  · simp

def reSplitDrop (specials : List Str) (text : Str) : List Str :=
  reSplitDropGo specials [] text

/-- `Counter[k] += n`. -/
def counterAdd {α : Type} [DecidableEq α] (k : α) (n : Nat) (c : List (α × Nat)) :
    List (α × Nat) :=
  dictInsert k ((alookup k c).getD 0 + n) c

/-- `process_text_chunk`: pre-tokenize one text chunk and count the UTF-8
byte tuples of its pre-tokens. -/
def processTextChunk (chunk : Str) : List (List Nat × Nat) :=
  (preTokenize chunk).foldl (fun cnt tok => counterAdd (utf8Encode tok) 1 cnt) []

/-- The serial pre-tokenization path of `train_bpe`: one shared counter over
every chunk. -/
def serialCount (chunks : List Str) : List (List Nat × Nat) :=
  chunks.foldl (fun cnt chunk =>
    (preTokenize chunk).foldl (fun cnt tok => counterAdd (utf8Encode tok) 1 cnt) cnt) []

/-- `Counter.update`: pointwise sum of two counters. -/
def counterMerge (c1 c2 : List (List Nat × Nat)) : List (List Nat × Nat) :=
  c2.foldl (fun acc kv => counterAdd kv.1 kv.2 acc) c1

/-- Python's `if chunk.strip()` guard: true iff the chunk has a
non-whitespace character. -/
def stripNonempty (chunk : Str) : Bool := chunk.any (fun c => !(isSpaceChar c))

/-- The parallel pre-tokenization path of `train_bpe`: each chunk passing
the `chunk.strip()` filter is counted independently and the per-chunk
counters are merged. -/
def parallelCount (chunks : List Str) : List (List Nat × Nat) :=
  ((chunks.filter stripNonempty).map processTextChunk).foldl counterMerge []

/-- The adjacent id pairs of a token sequence
(`(token[i], token[i+1]) for i in range(len(token) - 1)`). -/
def adjPairs : List Nat → List (Nat × Nat)
  | x :: y :: rest => (x, y) :: adjPairs (y :: rest)
  | _ => []

/-- The pair-count pass of the training loop. -/
def pairCounts (tc : List (List Nat × Nat)) : List ((Nat × Nat) × Nat) :=
  tc.foldl (fun pc kv =>
    (adjPairs kv.1).foldl (fun pc p => counterAdd p kv.2 pc) pc) []

/-- Python's `bytes` comparison: lexicographic, a strict prefix is
smaller. -/
def bytesLt : Bytes → Bytes → Bool
  | _, [] => false
  | [], _ :: _ => true
  | a :: as, b :: bs => a < b || (a = b && bytesLt as bs)

/-- Lexicographic comparison of pairs of byte strings. -/
def pairBytesLt (p q : Bytes × Bytes) : Bool :=
  bytesLt p.1 q.1 || (p.1 = q.1 && bytesLt p.2 q.2)

/-- Python's tuple comparison for the selection key
`(count, (left_bytes, right_bytes))`. -/
def keyLt (a b : Nat × (Bytes × Bytes)) : Bool :=
  a.1 < b.1 || (a.1 = b.1 && pairBytesLt a.2 b.2)

/-- The selection key `lambda x: (x[1], (vocab[x[0][0]], vocab[x[0][1]]))`
(the ids occurring in pair counts are always vocabulary keys; the `getD`
default mirrors total lookup). -/
def selKey (vocab : List (Nat × Bytes)) (it : (Nat × Nat) × Nat) :
    Nat × (Bytes × Bytes) :=
  (it.2, ((alookup it.1.1 vocab).getD [], (alookup it.1.2 vocab).getD []))

/-- Python's `max(items, key=...)`: the first item whose key no later item
strictly exceeds. -/
def pyMax (vocab : List (Nat × Bytes)) (x : (Nat × Nat) × Nat)
    (l : List ((Nat × Nat) × Nat)) : (Nat × Nat) × Nat :=
  l.foldl (fun best y => if keyLt (selKey vocab best) (selKey vocab y) then y else best) x

/-- `max(pair_counts.items(), key=...)[0]`; `pair_counts` is nonempty at
every use (the loop breaks first otherwise), so the `[]` case is
unreachable. -/
def bestPairOf (vocab : List (Nat × Bytes)) (pcs : List ((Nat × Nat) × Nat)) :
    Nat × Nat :=
  match pcs with
  | [] => (0, 0)
  | x :: rest => (pyMax vocab x rest).1

/-- The frequency-table rewrite after a merge is recorded: the same
non-overlapping left-to-right pass as the tokenizer's replay. -/
def mergeTokenCounter (p1 p2 newId : Nat) (tc : List (List Nat × Nat)) :
    List (List Nat × Nat) :=
  tc.foldl (fun acc kv => counterAdd (applyMerge p1 p2 newId kv.1) kv.2 acc) []

/-- `{i: bytes([i]) for i in range(256)}`. -/
def baseVocab : List (Nat × Bytes) := (List.range 256).map (fun i => (i, [i]))

/-- The base vocabulary extended with one entry per special token; the id
counter continues from 256 (a fresh id appended to a dict is a new final
binding). -/
def initialVocabState (specials : List Str) : List (Nat × Bytes) × Nat :=
  specials.foldl (fun (st : List (Nat × Bytes) × Nat) sp =>
    (st.1 ++ [(st.2, utf8Encode sp)], st.2 + 1)) (baseVocab, 256)

def initialVocab (specials : List Str) : List (Nat × Bytes) :=
  (initialVocabState specials).1

/-- The main BPE loop of `train_bpe` (step 5): while the vocabulary is
smaller than the target, count pairs, break if none, otherwise record the
best pair as a merge, append its concatenation under a fresh id, and
rewrite the frequency table. -/
def bpeLoop (vocabSize : Nat) (vocab : List (Nat × Bytes)) (nextId : Nat)
    (tc : List (List Nat × Nat)) (merges : List (Bytes × Bytes)) :
    List (Nat × Bytes) × List (Bytes × Bytes) :=
  if h : vocab.length < vocabSize then
    let pcs := pairCounts tc
    if pcs = [] then (vocab, merges)
    else
      let bp := bestPairOf vocab pcs
      let b1 := (alookup bp.1 vocab).getD []
      let b2 := (alookup bp.2 vocab).getD []
      bpeLoop vocabSize (vocab ++ [(nextId, b1 ++ b2)]) (nextId + 1)
        (mergeTokenCounter bp.1 bp.2 nextId tc) (merges ++ [(b1, b2)])
  else (vocab, merges)
  termination_by vocabSize - vocab.length
  decreasing_by
    simp only [List.length_append, List.length_cons, List.length_nil]
    omega

/-- `train_bpe(input_path, vocab_size, special_tokens)` as a function of
the input file's text. -/
def trainBpe (text : Str) (vocabSize : Nat) (specials : List Str) :
    List (Nat × Bytes) × List (Bytes × Bytes) :=
  let chunks := reSplitDrop specials text
  let tc := if 1 < chunks.length ∧ 100000 < (chunks.map List.length).sum
    then parallelCount chunks
    else serialCount chunks
  let st := initialVocabState specials
  bpeLoop vocabSize st.1 st.2 tc []
/-! ## The spec's description of one merge pass

`specOnePass` renders the specification sentence "scan the working sequence
left to right and replace every non-overlapping adjacent occurrence of the
rule's two ids with the merged id, continuing the scan after each
replacement" as: repeatedly find the leftmost adjacent occurrence, replace
it, and continue strictly after the replacement. -/

/-- Index of the leftmost adjacent occurrence of `(t1, t2)`. -/
def findPairIdx (t1 t2 : Nat) : List Nat → Option Nat
  | x :: y :: rest =>
    if x = t1 ∧ y = t2 then some 0
    else (findPairIdx t1 t2 (y :: rest)).map (fun i => i + 1)
  | _ => none

theorem findPairIdx_le {t1 t2 : Nat} :
    ∀ {l : List Nat} {i : Nat}, findPairIdx t1 t2 l = some i → i + 2 ≤ l.length := by
  intro l
  induction l with
  | nil => intro i h; simp [findPairIdx] at h
  | cons x l' ih =>
    intro i h
    cases l' with
    | nil => simp [findPairIdx] at h
    | cons y rest =>
      simp only [findPairIdx] at h
      split at h
      · rw [Option.some.injEq] at h
        subst h
        simp
      · rw [Option.map_eq_some'] at h
        obtain ⟨j, hj, rfl⟩ := h
        have := ih hj
        simp only [List.length_cons] at this ⊢
        omega

/-- Modelled from the spec: one merge-rule application is a left-to-right
scan replacing every non-overlapping adjacent occurrence of the rule's two
ids by the merged id, continuing after each replacement. -/
def specOnePass (t1 t2 m : Nat) (seq : List Nat) : List Nat :=
  match h : findPairIdx t1 t2 seq with
  | none => seq
  | some i => seq.take i ++ m :: specOnePass t1 t2 m (seq.drop (i + 2))
  termination_by seq.length
  decreasing_by
    have := findPairIdx_le h
    simp only [List.length_drop]
    omega

theorem specOnePass_eq_none {t1 t2 m : Nat} {seq : List Nat}
    (h : findPairIdx t1 t2 seq = none) : specOnePass t1 t2 m seq = seq := by
  rw [specOnePass]
  split
  · rfl
  · next i hi =>
    rw [h] at hi
    cases hi

theorem specOnePass_eq_some {t1 t2 m : Nat} {seq : List Nat} {i : Nat}
    (h : findPairIdx t1 t2 seq = some i) :
    specOnePass t1 t2 m seq
      = seq.take i ++ m :: specOnePass t1 t2 m (seq.drop (i + 2)) := by
  rw [specOnePass]
  split
  · next hnone =>
    rw [h] at hnone
    cases hnone
  · next j hj =>
    rw [h, Option.some.injEq] at hj
    subst hj
    rfl

/-- The source's single pass equals the spec's description of one pass. -/
theorem applyMerge_eq_specOnePass (t1 t2 m : Nat) :
    ∀ seq : List Nat, applyMerge t1 t2 m seq = specOnePass t1 t2 m seq := by
  intro seq
  induction seq using applyMerge.induct t1 t2 m with
  | case1 x y rest hxy ih =>
    simp only [Bool.and_eq_true, decide_eq_true_eq] at hxy
    rw [applyMerge, if_pos (by simp [hxy.1, hxy.2])]
    have hfind : findPairIdx t1 t2 (x :: y :: rest) = some 0 := by
      simp [findPairIdx, hxy.1, hxy.2]
    rw [specOnePass_eq_some hfind]
    simp [ih]
  | case2 x y rest hxy ih =>
    rw [applyMerge, if_neg hxy]
    have hxy' : ¬ (x = t1 ∧ y = t2) := by
      intro hc
      apply hxy
      simp [hc.1, hc.2]
    cases h2 : findPairIdx t1 t2 (y :: rest) with
    | none =>
      have hfind : findPairIdx t1 t2 (x :: y :: rest) = none := by
        simp [findPairIdx, hxy', h2]
      rw [specOnePass_eq_none hfind, ih, specOnePass_eq_none h2]
    | some i =>
      have hfind : findPairIdx t1 t2 (x :: y :: rest) = some (i + 1) := by
        simp [findPairIdx, hxy', h2]
      rw [specOnePass_eq_some hfind, ih, specOnePass_eq_some h2]
      simp [List.take_succ_cons, List.drop_succ_cons]
  | case3 xs hxs =>
    rcases xs with _ | ⟨x, _ | ⟨y, rest⟩⟩
    · rw [specOnePass_eq_none (by simp [findPairIdx])]
      rfl
    · rw [specOnePass_eq_none (by simp [findPairIdx])]
      rfl
    · exact absurd rfl (hxs x y rest)
/-! ## Shared concrete instances -/

theorem baseVocab_keysNodup : keysNodup baseVocab := by
  unfold keysNodup baseVocab
  rw [List.map_map]
  have hid : ((fun (kv : Nat × Bytes) => kv.1) ∘ fun i => ((i : Nat), ([i] : Bytes)))
      = id := rfl
  rw [hid, List.map_id]
  exact List.nodup_range 256

theorem baseVocab_byteComplete : byteComplete baseVocab := by
  intro b hb
  exact ⟨(b, [b]), List.mem_map.mpr ⟨b, List.mem_range.mpr hb, rfl⟩, rfl⟩

/-! ## The claims -/

/-- C1: for every string `s` built from registered special-token literals
and plain text (any string qualifies), if the vocabulary — a Python dict,
hence with unique keys — maps some id to every single-byte sequence
`bytes([b])`, then `decode (encode s) = s`; the "valid UTF-8" proviso holds
for every Lean `Char` by construction. -/
theorem claim_C1_roundtrip (vocab : List (Nat × Bytes)) (merges : List (Bytes × Bytes))
    (specials : List Str) (hnd : keysNodup vocab) (hbc : byteComplete vocab)
    (s : Str) :
    (Tokenizer.init vocab merges specials).decode
      ((Tokenizer.init vocab merges specials).encode s) = s :=
  roundtrip vocab merges specials hnd hbc s

/-- Witness for C1 at the byte-alphabet vocabulary with a registered
special token: the empty string, one ASCII character, one two-byte
character, and mixed content containing the special token. -/
theorem claim_C1_roundtrip_witness :
    keysNodup baseVocab ∧ byteComplete baseVocab ∧
    (Tokenizer.init baseVocab [] [['<','X','>']]).decode
      ((Tokenizer.init baseVocab [] [['<','X','>']]).encode []) = [] ∧
    (Tokenizer.init baseVocab [] [['<','X','>']]).decode
      ((Tokenizer.init baseVocab [] [['<','X','>']]).encode ['a']) = ['a'] ∧
    (Tokenizer.init baseVocab [] [['<','X','>']]).decode
      ((Tokenizer.init baseVocab [] [['<','X','>']]).encode ['é']) = ['é'] ∧
    (Tokenizer.init baseVocab [] [['<','X','>']]).decode
      ((Tokenizer.init baseVocab [] [['<','X','>']]).encode
        ['<','X','>','h','i',' ','é']) = ['<','X','>','h','i',' ','é'] :=
  ⟨baseVocab_keysNodup, baseVocab_byteComplete,
    claim_C1_roundtrip _ _ _ baseVocab_keysNodup baseVocab_byteComplete _,
    claim_C1_roundtrip _ _ _ baseVocab_keysNodup baseVocab_byteComplete _,
    claim_C1_roundtrip _ _ _ baseVocab_keysNodup baseVocab_byteComplete _,
    claim_C1_roundtrip _ _ _ baseVocab_keysNodup baseVocab_byteComplete _⟩

theorem decodeBytes_filterMap (t : Tokenizer) (ids : List Nat) :
    decodeBytes t ids
      = (ids.filterMap (fun tokenId => alookup tokenId t.vocab)).flatten := by
  rw [decodeBytes_eq]
  induction ids with
  | nil => rfl
  | cons x ids ih =>
    simp only [List.map_cons, List.flatten_cons, List.filterMap_cons]
    cases h : alookup x t.vocab with
    | none => simp [vocabBytes, h, ih]
    | some bs => simp [vocabBytes, h, ih]

/-- C8: `decode` is total on every id list — it concatenates `vocab[id]`
for the ids present in the vocabulary, silently skips absent ids
(`filterMap`), UTF-8-decodes the buffer with U+FFFD replacement for
malformed subsequences, and `decode [] = ""`. -/
theorem claim_C8_decode (t : Tokenizer) (ids : List Nat) :
    t.decode ids
      = utf8DecodeReplace
          ((ids.filterMap (fun tokenId => alookup tokenId t.vocab)).flatten)
    ∧ t.decode [] = [] := by
  constructor
  · rw [decode_eq_decodeBytes, decodeBytes_filterMap]
  · simp [Tokenizer.decode]

theorem foldl_mergeStep_spec (t : Tokenizer) (rules : List (Bytes × Bytes)) :
    ∀ seq : List Nat,
    rules.foldl (mergeStepFn t) seq
      = rules.foldl (fun seq rule =>
          match alookup rule.1 t.byteToId, alookup rule.2 t.byteToId,
              alookup (rule.1 ++ rule.2) t.byteToId with
          | some t1, some t2, some mid => specOnePass t1 t2 mid seq
          | _, _, _ => seq) seq := by
  induction rules with
  | nil => intro seq; rfl
  | cons rule rest ih =>
    intro seq
    simp only [List.foldl_cons]
    rw [ih]
    congr 1
    unfold mergeStepFn
    cases alookup rule.1 t.byteToId <;> cases alookup rule.2 t.byteToId <;>
      cases alookup (rule.1 ++ rule.2) t.byteToId <;>
      simp [applyMerge_eq_specOnePass]

/-- C5: `_encode_text` pre-tokenizes, initialises each pre-token's working
sequence from its individual UTF-8 bytes, then replays every merge rule
exactly once in the Merge Rule List's order (a `foldl`, so no rule is
revisited after later rules run), each application being a single
left-to-right non-overlapping scan (`specOnePass`, written from the spec's
sentence); rules whose ids or merged id are not indexed are skipped. -/
theorem claim_C5_mergeReplay (t : Tokenizer) (text : Str) :
    t.encodeText text
      = ((preTokenize text).map (fun pt =>
          t.merges.foldl (fun seq rule =>
            match alookup rule.1 t.byteToId, alookup rule.2 t.byteToId,
                alookup (rule.1 ++ rule.2) t.byteToId with
            | some t1, some t2, some mid => specOnePass t1 t2 mid seq
            | _, _, _ => seq)
          ((utf8Encode pt).map (fun b => (alookup [b] t.byteToId).getD b)))).flatten := by
  unfold Tokenizer.encodeText
  split
  · next heq =>
    rw [heq]
    simp [preTokenize]
  · congr 1
    apply List.map_congr_left
    intro pt _
    unfold encodePretoken
    exact foldl_mergeStep_spec t t.merges _

/-- C3 (amended): construction never fails, and a merge rule whose
concatenation has no id in the reverse index is skipped — it leaves every
working sequence unchanged during encoding. -/
theorem claim_C3_amended (vocab : List (Nat × Bytes)) (merges : List (Bytes × Bytes))
    (specials : List Str) (rule : Bytes × Bytes)
    (hmiss : alookup (rule.1 ++ rule.2)
        (Tokenizer.init vocab merges specials).byteToId = none) :
    ∀ seq : List Nat,
    mergeStepFn (Tokenizer.init vocab merges specials) seq rule = seq := by
  intro seq
  unfold mergeStepFn
  cases alookup rule.1 (Tokenizer.init vocab merges specials).byteToId <;>
    cases alookup rule.2 (Tokenizer.init vocab merges specials).byteToId <;>
    simp [hmiss]

/-- Witness for C3's amended claim: vocabulary `{0: b"a", 1: b"b"}` and the
merge `(b"a", b"b")` whose concatenation `b"ab"` is missing. -/
theorem claim_C3_amended_witness :
    alookup ([97] ++ [98])
        (Tokenizer.init [(0, [97]), (1, [98])] [([97], [98])] []).byteToId = none
    ∧ mergeStepFn (Tokenizer.init [(0, [97]), (1, [98])] [([97], [98])] [])
        [0, 1] ([97], [98]) = [0, 1] :=
  ⟨by decide, claim_C3_amended _ _ _ _ (by decide) [0, 1]⟩
/-- C2 (code bug): with special tokens registered as `["<X>", "<X><X>"]` —
shorter first, exactly as the repository's own
`test_overlapping_special_tokens` registers `<|endoftext|>` before its
doubling — `encode` builds the alternation in registration order without
sorting by length, Python's first-match alternation picks `"<X>"` at both
positions, and `encode "<X><X>"` returns the id of `"<X>"` twice (two
tokens), even though `"<X><X>"` is registered with its own id (1): the
longer literal is never matched, contradicting the claim and the test. -/
theorem claim_C2_divergence :
    (Tokenizer.init [] [] [['<','X','>'], ['<','X','>','<','X','>']]).encode
        ['<','X','>','<','X','>'] = [0, 0]
    ∧ alookup (utf8Encode ['<','X','>','<','X','>'])
        (Tokenizer.init [] [] [['<','X','>'], ['<','X','>','<','X','>']]).byteToId
      = some 1 := by
  constructor
  · have hsp : (Tokenizer.init [] [] [['<','X','>'], ['<','X','>','<','X','>']]).specialTokens
        = [['<','X','>'], ['<','X','>','<','X','>']] := rfl
    have hsplit : reSplitKeep [['<','X','>'], ['<','X','>','<','X','>']]
        ['<','X','>','<','X','>']
        = [[], ['<','X','>'], [], ['<','X','>'], []] := by
      simp [reSplitKeep, reSplitGo, firstSpecialAt, litMatchesAt]
    simp only [Tokenizer.encode]
    rw [if_neg (by decide), if_pos (by decide), hsp, hsplit]
    decide
  · decide

/-- C3 (counterexample): vocabulary `{0: b"a", 1: b"b"}` with the merge
rule `(b"a", b"b")` whose concatenation `b"ab"` is not in the vocabulary.
Construction does not fail: it returns a usable tokenizer (with an empty
merge lookup) that encodes `"ab"` normally, refuting "refuses construction
and signals a configuration error". -/
theorem claim_C3_counterexample :
    (Tokenizer.init [(0, [97]), (1, [98])] [([97], [98])] []).mergeDict = []
    ∧ (Tokenizer.init [(0, [97]), (1, [98])] [([97], [98])] []).encode ['a','b']
      = [0, 1] := by
  constructor
  · rfl
  · have hpt : preTokenize ['a','b'] = [['a','b']] := by
      simp [preTokenize, matchPretoken, matchContraction, matchSpaceClassRun,
        matchTrailingWS, matchWS, isLetterChar, isSpaceChar, isNumberChar,
        isOtherChar]
    simp only [Tokenizer.encode]
    rw [if_neg (by decide), if_neg (by decide)]
    simp only [Tokenizer.encodeText]
    rw [if_neg (by decide), hpt]
    decide

/-! ## The streaming scenario of C9 -/

theorem flushBuffer_line1 (t : Tokenizer) :
    flushBuffer t ['H','e','l','l','o','\n']
      = (t.encode ['H','e','l','l','o','\n'], []) := by
  rw [flushBuffer]
  simp [rfindNewline, flushBuffer]

theorem flushBuffer_tail (t : Tokenizer) :
    flushBuffer t ['t','e','s','t'] = ([], ['t','e','s','t']) := by
  rw [flushBuffer]
  simp

/-- The streaming encoder's buffer control flow on the spec's scenario C:
each newline-terminated chunk is flushed whole, the last chunk is encoded
at end of input. -/
theorem encodeIterable_scenarioC (t : Tokenizer) :
    t.encodeIterable
        [['H','e','l','l','o','\n'], ['w','o','r','l','d','\n'], ['t','e','s','t']]
      = t.encode ['H','e','l','l','o','\n'] ++ t.encode ['w','o','r','l','d','\n']
          ++ t.encode ['t','e','s','t'] := by
  have h2 : flushBuffer t ['w','o','r','l','d','\n']
      = (t.encode ['w','o','r','l','d','\n'], []) := by
    rw [flushBuffer]
    simp [rfindNewline, flushBuffer]
  simp only [Tokenizer.encodeIterable, List.foldl_cons, List.foldl_nil,
    List.nil_append, flushBuffer_line1, h2, flushBuffer_tail, List.append_nil]
  rw [if_pos (by decide)]

/-- C9: for a tokenizer with no special tokens over a byte-complete,
duplicate-free vocabulary, decoding the ids yielded by
`encode_iterable(["Hello\n", "world\n", "test"])` equals decoding
`encode("Hello\nworld\ntest")`. -/
theorem claim_C9_streaming (vocab : List (Nat × Bytes)) (merges : List (Bytes × Bytes))
    (hnd : keysNodup vocab) (hbc : byteComplete vocab) :
    (Tokenizer.init vocab merges []).decode
      ((Tokenizer.init vocab merges []).encodeIterable
        [['H','e','l','l','o','\n'], ['w','o','r','l','d','\n'], ['t','e','s','t']])
    = (Tokenizer.init vocab merges []).decode
        ((Tokenizer.init vocab merges []).encode
          ['H','e','l','l','o','\n','w','o','r','l','d','\n','t','e','s','t']) := by
  have hinv : InverseIndex (Tokenizer.init vocab merges []) := init_inverse hnd
  have hbyte := @init_byteLookup vocab merges [] hbc
  have hspec : ∀ sp ∈ (Tokenizer.init vocab merges []).specialTokens,
      (alookup (utf8Encode sp) (Tokenizer.init vocab merges []).byteToId).isSome :=
    fun sp hsp => init_specialLookup hsp
  rw [encodeIterable_scenarioC]
  rw [decode_eq_decodeBytes, decode_eq_decodeBytes]
  rw [decodeBytes_append, decodeBytes_append]
  rw [encode_decodeBytes hinv hbyte hspec, encode_decodeBytes hinv hbyte hspec,
    encode_decodeBytes hinv hbyte hspec, encode_decodeBytes hinv hbyte hspec]
  rw [← utf8Encode_append, ← utf8Encode_append]
  rfl

/-- Witness for C9 at the byte-alphabet vocabulary. -/
theorem claim_C9_streaming_witness :
    keysNodup baseVocab ∧ byteComplete baseVocab ∧
    (Tokenizer.init baseVocab [] []).decode
      ((Tokenizer.init baseVocab [] []).encodeIterable
        [['H','e','l','l','o','\n'], ['w','o','r','l','d','\n'], ['t','e','s','t']])
    = (Tokenizer.init baseVocab [] []).decode
        ((Tokenizer.init baseVocab [] []).encode
          ['H','e','l','l','o','\n','w','o','r','l','d','\n','t','e','s','t']) :=
  ⟨baseVocab_keysNodup, baseVocab_byteComplete,
    claim_C9_streaming baseVocab [] baseVocab_keysNodup baseVocab_byteComplete⟩
/-! ## Trainer size accounting, selection order, and the two counting paths -/

theorem bpeLoopAux (vocabSize : Nat) :
    ∀ (fuel : Nat) (vocab : List (Nat × Bytes)) (nextId : Nat)
      (tc : List (List Nat × Nat)) (merges : List (Bytes × Bytes)),
      vocabSize - vocab.length ≤ fuel →
    (bpeLoop vocabSize vocab nextId tc merges).1.length + merges.length
      = vocab.length + (bpeLoop vocabSize vocab nextId tc merges).2.length
    ∧ (bpeLoop vocabSize vocab nextId tc merges).1.length
        ≤ max vocab.length vocabSize := by
  intro fuel
  induction fuel with
  | zero =>
    intro vocab nextId tc merges hf
    rw [bpeLoop, dif_neg (by omega)]
    exact ⟨rfl, Nat.le_max_left _ _⟩
  | succ n ih =>
    intro vocab nextId tc merges hf
    rw [bpeLoop]
    by_cases h : vocab.length < vocabSize
    · rw [dif_pos h]
      by_cases hpcs : pairCounts tc = []
      · simp only [hpcs, if_pos]
        exact ⟨trivial, Nat.le_max_left _ _⟩
      · simp only [if_neg hpcs]
        have hrec := ih (vocab ++ [((nextId : Nat),
            (alookup (bestPairOf vocab (pairCounts tc)).1 vocab).getD [] ++
            (alookup (bestPairOf vocab (pairCounts tc)).2 vocab).getD [])])
          (nextId + 1)
          (mergeTokenCounter (bestPairOf vocab (pairCounts tc)).1
            (bestPairOf vocab (pairCounts tc)).2 nextId tc)
          (merges ++ [((alookup (bestPairOf vocab (pairCounts tc)).1 vocab).getD [],
            (alookup (bestPairOf vocab (pairCounts tc)).2 vocab).getD [])])
          (by
            simp only [List.length_append, List.length_cons, List.length_nil]
            omega)
        obtain ⟨ih1, ih2⟩ := hrec
        have hmax1 : max (vocab.length + 1) vocabSize = vocabSize :=
          Nat.max_eq_right h
        have hmax2 : max vocab.length vocabSize = vocabSize :=
          Nat.max_eq_right (Nat.le_of_lt h)
        simp only [List.length_append, List.length_cons, List.length_nil] at ih1 ih2
        constructor
        · omega
        · rw [hmax2]
          rw [hmax1] at ih2
          exact ih2
    · rw [dif_neg h]
      exact ⟨rfl, Nat.le_max_left _ _⟩

theorem initialVocabAux (l : List Str) :
    ∀ st : List (Nat × Bytes) × Nat,
    (l.foldl (fun (st : List (Nat × Bytes) × Nat) sp =>
      (st.1 ++ [(st.2, utf8Encode sp)], st.2 + 1)) st).1.length
      = st.1.length + l.length := by
  induction l with
  | nil => intro st; simp
  | cons sp rest ih =>
    intro st
    simp only [List.foldl_cons]
    rw [ih]
    simp only [List.length_append, List.length_cons, List.length_nil]
    omega

theorem initialVocab_length (specials : List Str) :
    (initialVocabState specials).1.length = 256 + specials.length := by
  unfold initialVocabState
  rw [initialVocabAux]
  simp [baseVocab]

theorem trainBpe_eq (text : Str) (vocabSize : Nat) (specials : List Str) :
    trainBpe text vocabSize specials
      = bpeLoop vocabSize (initialVocabState specials).1 (initialVocabState specials).2
          (if 1 < (reSplitDrop specials text).length ∧
              100000 < ((reSplitDrop specials text).map List.length).sum
            then parallelCount (reSplitDrop specials text)
            else serialCount (reSplitDrop specials text)) [] := rfl

/-- C4 (amended): the returned vocabulary has exactly
`256 + len(special_tokens) + len(merges)` entries — one appended per
recorded merge — and its size never exceeds
`max(vocab_size, 256 + len(special_tokens))`; the original "at most
vocab_size" fails when `vocab_size` is below the base-plus-special size
(see the counterexample). -/
theorem claim_C4_growth (text : Str) (vocabSize : Nat) (specials : List Str) :
    (trainBpe text vocabSize specials).1.length
      = 256 + specials.length + (trainBpe text vocabSize specials).2.length
    ∧ (trainBpe text vocabSize specials).1.length
        ≤ max vocabSize (256 + specials.length) := by
  rw [trainBpe_eq]
  obtain ⟨h1, h2⟩ := bpeLoopAux vocabSize (vocabSize - (initialVocabState specials).1.length)
    (initialVocabState specials).1 (initialVocabState specials).2
    (if 1 < (reSplitDrop specials text).length ∧
        100000 < ((reSplitDrop specials text).map List.length).sum
      then parallelCount (reSplitDrop specials text)
      else serialCount (reSplitDrop specials text)) [] (Nat.le_refl _)
  rw [initialVocab_length specials] at h1 h2
  simp only [List.length_nil] at h1
  constructor
  · omega
  · rw [Nat.max_comm]
    exact h2

/-- C4 (counterexample): with `vocab_size = 0` the returned vocabulary has
256 entries, exceeding `vocab_size`. -/
theorem claim_C4_counterexample :
    (trainBpe [] 0 []).1.length = 256 ∧ ¬ ((trainBpe [] 0 []).1.length ≤ 0) := by
  have h : trainBpe [] 0 [] = (baseVocab, []) := by
    rw [trainBpe_eq, bpeLoop, dif_neg (by rw [initialVocab_length]; omega)]
    rfl
  rw [h]
  have hlen : baseVocab.length = 256 := by
    simp [baseVocab]
  constructor
  · exact hlen
  · show ¬ (baseVocab.length ≤ 0)
    omega

/-- C7: if `vocab_size` is smaller than 256 plus the number of special
tokens, the merge loop runs zero iterations and training returns the
base-plus-special vocabulary with no merges and no error; and whenever no
adjacent pair exists in the frequency table, the loop exits immediately
with whatever was built.  (The loop itself is total in this embedding: its
measure `vocab_size - len(vocab)` strictly decreases each iteration.) -/
theorem claim_C7_termination :
    (∀ (text : Str) (vocabSize : Nat) (specials : List Str),
      vocabSize < 256 + specials.length →
      trainBpe text vocabSize specials = (initialVocab specials, []))
    ∧ (∀ (vocabSize : Nat) (vocab : List (Nat × Bytes)) (nextId : Nat)
        (tc : List (List Nat × Nat)) (merges : List (Bytes × Bytes)),
        pairCounts tc = [] →
        bpeLoop vocabSize vocab nextId tc merges = (vocab, merges)) := by
  constructor
  · intro text vocabSize specials h
    rw [trainBpe_eq, bpeLoop, dif_neg (by rw [initialVocab_length]; omega)]
    rfl
  · intro vocabSize vocab nextId tc merges h
    rw [bpeLoop]
    split
    · simp [h]
    · rfl

theorem bytesLt_irrefl : ∀ a : Bytes, bytesLt a a = false := by
  intro a
  induction a with
  | nil => rfl
  | cons x as ih => simp [bytesLt, ih]

theorem bytesLt_trans : ∀ {a b c : Bytes},
    bytesLt a b = true → bytesLt b c = true → bytesLt a c = true := by
  intro a
  induction a with
  | nil =>
    intro b c hab hbc
    cases b with
    | nil => simp [bytesLt] at hab
    | cons y bs =>
      cases c with
      | nil => simp [bytesLt] at hbc
      | cons z cs => simp [bytesLt]
  | cons x as ih =>
    intro b c hab hbc
    cases b with
    | nil => simp [bytesLt] at hab
    | cons y bs =>
      cases c with
      | nil => simp [bytesLt] at hbc
      | cons z cs =>
        simp only [bytesLt, Bool.or_eq_true, Bool.and_eq_true,
          decide_eq_true_eq] at hab hbc ⊢
        rcases hab with h1 | ⟨rfl, h1⟩
        · rcases hbc with h2 | ⟨rfl, h2⟩
          · left; omega
          · left; exact h1
        · rcases hbc with h2 | ⟨rfl, h2⟩
          · left; exact h2
          · right; exact ⟨rfl, ih h1 h2⟩

theorem bytesLt_antisymm : ∀ {a b : Bytes},
    bytesLt a b = false → bytesLt b a = false → a = b := by
  intro a
  induction a with
  | nil =>
    intro b h1 h2
    cases b with
    | nil => rfl
    | cons y bs => simp [bytesLt] at h1
  | cons x as ih =>
    intro b h1 h2
    cases b with
    | nil => simp [bytesLt] at h2
    | cons y bs =>
      simp only [bytesLt, Bool.or_eq_false_iff, Bool.and_eq_false_iff,
        decide_eq_false_iff_not] at h1 h2
      obtain ⟨hx1, hx2⟩ := h1
      obtain ⟨hy1, hy2⟩ := h2
      have hxy : x = y := by omega
      subst hxy
      rcases hx2 with hc | hlt1
      · exact absurd rfl hc
      · rcases hy2 with hc | hlt2
        · exact absurd rfl hc
        · rw [ih hlt1 hlt2]

theorem keyLt_irrefl (a : Nat × (Bytes × Bytes)) : keyLt a a = false := by
  simp [keyLt, pairBytesLt, bytesLt_irrefl]

theorem keyLt_trans {a b c : Nat × (Bytes × Bytes)}
    (hab : keyLt a b = true) (hbc : keyLt b c = true) : keyLt a c = true := by
  simp only [keyLt, pairBytesLt, Bool.or_eq_true, Bool.and_eq_true,
    decide_eq_true_eq] at hab hbc ⊢
  rcases hab with h1 | ⟨he1, h1⟩
  · rcases hbc with h2 | ⟨he2, h2⟩
    · left; omega
    · left; omega
  · rcases hbc with h2 | ⟨he2, h2⟩
    · left; omega
    · right
      refine ⟨by omega, ?_⟩
      rcases h1 with h1' | ⟨heq1, h1'⟩
      · rcases h2 with h2' | ⟨heq2, h2'⟩
        · left; exact bytesLt_trans h1' h2'
        · left; rw [← heq2]; exact h1'
      · rcases h2 with h2' | ⟨heq2, h2'⟩
        · left; rw [heq1]; exact h2'
        · right; exact ⟨heq1.trans heq2, bytesLt_trans h1' h2'⟩

theorem keyLt_antisymm {a b : Nat × (Bytes × Bytes)}
    (h1 : keyLt a b = false) (h2 : keyLt b a = false) : a = b := by
  simp only [keyLt, pairBytesLt, Bool.or_eq_false_iff, Bool.and_eq_false_iff,
    decide_eq_false_iff_not] at h1 h2
  obtain ⟨hn1, hd1⟩ := h1
  obtain ⟨hn2, hd2⟩ := h2
  have hcount : a.1 = b.1 := by omega
  rcases hd1 with hc | hp1
  · exact absurd hcount hc
  · rcases hd2 with hc | hp2
    · exact absurd hcount.symm hc
    · obtain ⟨hl1, hr1⟩ := hp1
      obtain ⟨hl2, hr2⟩ := hp2
      have hfst : a.2.1 = b.2.1 := bytesLt_antisymm hl1 hl2
      rcases hr1 with hc | hs1
      · exact absurd hfst hc
      · rcases hr2 with hc | hs2
        · exact absurd hfst.symm hc
        · have hsnd : a.2.2 = b.2.2 := bytesLt_antisymm hs1 hs2
          have hpair : a.2 = b.2 := Prod.ext hfst hsnd
          exact Prod.ext hcount hpair

theorem pyMax_spec (vocab : List (Nat × Bytes)) :
    ∀ (l : List ((Nat × Nat) × Nat)) (x : (Nat × Nat) × Nat),
    (pyMax vocab x l = x ∨ pyMax vocab x l ∈ l)
    ∧ keyLt (selKey vocab (pyMax vocab x l)) (selKey vocab x) = false
    ∧ ∀ y ∈ l, keyLt (selKey vocab (pyMax vocab x l)) (selKey vocab y) = false := by
  intro l
  induction l with
  | nil =>
    intro x
    refine ⟨Or.inl rfl, ?_, by simp⟩
    exact keyLt_irrefl _
  | cons y rest ih =>
    intro x
    have hstep : pyMax vocab x (y :: rest)
        = pyMax vocab (if keyLt (selKey vocab x) (selKey vocab y) then y else x) rest :=
      rfl
    by_cases hxy : keyLt (selKey vocab x) (selKey vocab y) = true
    · rw [hstep, if_pos hxy]
      obtain ⟨hmem, hbase, hall⟩ := ih y
      refine ⟨?_, ?_, ?_⟩
      · rcases hmem with heq | hmem'
        · exact Or.inr (List.mem_cons.mpr (Or.inl heq))
        · exact Or.inr (List.mem_cons.mpr (Or.inr hmem'))
      · by_cases hc : keyLt (selKey vocab (pyMax vocab y rest)) (selKey vocab x) = true
        · exact absurd (keyLt_trans hc hxy) (by simp [hbase])
        · simpa using hc
      · intro z hz
        rcases List.mem_cons.mp hz with rfl | hz'
        · exact hbase
        · exact hall z hz'
    · rw [hstep, if_neg hxy]
      obtain ⟨hmem, hbase, hall⟩ := ih x
      have hxyf : keyLt (selKey vocab x) (selKey vocab y) = false := by
        simpa using hxy
      refine ⟨?_, hbase, ?_⟩
      · rcases hmem with heq | hmem'
        · exact Or.inl heq
        · exact Or.inr (List.mem_cons.mpr (Or.inr hmem'))
      · intro z hz
        rcases List.mem_cons.mp hz with rfl | hz'
        · by_cases hc : keyLt (selKey vocab (pyMax vocab x rest)) (selKey vocab z) = true
          · by_cases hzx : keyLt (selKey vocab z) (selKey vocab x) = true
            · exact absurd (keyLt_trans hc hzx) (by simp [hbase])
            · have hzxf : keyLt (selKey vocab z) (selKey vocab x) = false := by
                simpa using hzx
              have heq := keyLt_antisymm hxyf hzxf
              rw [← heq] at hc
              exact absurd hc (by simp [hbase])
          · simpa using hc
        · exact hall z hz'

/-- C6: the pair `train_bpe` records next is the pair of a
frequency-table entry whose key `(count, (left_bytes, right_bytes))` is
maximal: no entry's key strictly exceeds it under Python's tuple order
(count first, then byte-lexicographic comparison of the byte-string
pair). -/
theorem claim_C6_selection (vocab : List (Nat × Bytes))
    (pcs : List ((Nat × Nat) × Nat)) (hne : pcs ≠ []) :
    ∃ it ∈ pcs, it.1 = bestPairOf vocab pcs ∧
      ∀ q ∈ pcs, keyLt (selKey vocab it) (selKey vocab q) = false := by
  cases pcs with
  | nil => exact absurd rfl hne
  | cons x rest =>
    obtain ⟨hmem, hbase, hall⟩ := pyMax_spec vocab rest x
    refine ⟨pyMax vocab x rest, ?_, rfl, ?_⟩
    · rcases hmem with heq | hmem'
      · exact List.mem_cons.mpr (Or.inl heq)
      · exact List.mem_cons.mpr (Or.inr hmem')
    · intro q hq
      rcases List.mem_cons.mp hq with rfl | hq'
      · exact hbase
      · exact hall q hq'

/-- Witness for C6: two pairs tie on count 2; the byte-lexicographically
greater pair `(b"\x01", b"\x02")` wins. -/
theorem claim_C6_selection_witness :
    ([((0,1),2), ((1,2),2)] : List ((Nat × Nat) × Nat)) ≠ [] ∧
    (∃ it ∈ ([((0,1),2), ((1,2),2)] : List ((Nat × Nat) × Nat)),
      it.1 = bestPairOf baseVocab [((0,1),2), ((1,2),2)] ∧
      ∀ q ∈ ([((0,1),2), ((1,2),2)] : List ((Nat × Nat) × Nat)),
        keyLt (selKey baseVocab it) (selKey baseVocab q) = false) :=
  ⟨by decide, claim_C6_selection baseVocab _ (by decide)⟩

/-- Witness for C7: target size 0 with no specials stops at the 256-entry
base vocabulary; an empty frequency table exits the loop untouched. -/
theorem claim_C7_termination_witness :
    ((0 : Nat) < 256 + ([] : List Str).length)
    ∧ trainBpe [] 0 [] = (initialVocab [], [])
    ∧ pairCounts [] = []
    ∧ bpeLoop 300 baseVocab 256 [] [] = (baseVocab, []) :=
  ⟨by decide, claim_C7_termination.1 [] 0 [] (by decide), rfl,
    claim_C7_termination.2 300 baseVocab 256 [] [] rfl⟩

/-- C10 (code bug): on the corpus `"a<s> <s>b"` with special token
`"<s>"` the chunks are `["a", " ", "b"]`; the serial path counts the
whitespace pre-token `" "` once, but the parallel path's
`if chunk.strip()` filter (commented "Skip empty chunks") drops the
whitespace-only segment entirely, so the combined counter differs from the
serial one — the two paths do not produce the same frequency table. -/
theorem claim_C10_divergence :
    reSplitDrop [['<','s','>']] ['a','<','s','>',' ','<','s','>','b']
        = [['a'], [' '], ['b']]
    ∧ alookup [32] (serialCount [['a'], [' '], ['b']]) = some 1
    ∧ alookup [32] (parallelCount [['a'], [' '], ['b']]) = none
    ∧ serialCount [['a'], [' '], ['b']] ≠ parallelCount [['a'], [' '], ['b']] := by
  have hpa : preTokenize ['a'] = [['a']] := by
    simp [preTokenize, matchPretoken, matchContraction, matchSpaceClassRun,
      matchTrailingWS, matchWS, isLetterChar, isSpaceChar, isNumberChar, isOtherChar]
  have hps : preTokenize [' '] = [[' ']] := by
    simp [preTokenize, matchPretoken, matchContraction, matchSpaceClassRun,
      matchTrailingWS, matchWS, isLetterChar, isSpaceChar, isNumberChar, isOtherChar]
  have hpb : preTokenize ['b'] = [['b']] := by
    simp [preTokenize, matchPretoken, matchContraction, matchSpaceClassRun,
      matchTrailingWS, matchWS, isLetterChar, isSpaceChar, isNumberChar, isOtherChar]
  have hserial : alookup [32] (serialCount [['a'], [' '], ['b']]) = some 1 := by
    simp only [serialCount, List.foldl_cons, List.foldl_nil, hpa, hps, hpb]
    decide
  have hfil : ([['a'], [' '], ['b']] : List Str).filter stripNonempty
      = [['a'], ['b']] := by decide
  have hpar : alookup [32] (parallelCount [['a'], [' '], ['b']]) = none := by
    simp only [parallelCount, hfil, List.map_cons, List.map_nil, processTextChunk,
      hpa, hpb, List.foldl_cons, List.foldl_nil]
    decide
  refine ⟨?_, hserial, hpar, ?_⟩
  · simp [reSplitDrop, reSplitDropGo, firstSpecialAt, litMatchesAt]
  · intro heq
    rw [heq, hpar] at hserial
    cases hserial
end BPE
